import Mathlib

/-!
Verification of the intent-gatekeeper and audit-trail subsystem of this
repository against its natural-language specification.

The definitions below are a shallow embedding of the TypeScript sources:

* `src/src/hooks/IntentGatekeeperHook.ts` — the pre-action policy check
  (`check`, `classifyTool`, `checkStaleFile`, `getTargetPathsForTool`,
  `extractPathsFromPatch`, `normalizePath`, `matchesPattern`,
  `readIntentIgnorePolicy`, `parseIntentIgnoreContent`).
* `src/src/hooks/AgentTracePostHook.ts` — the append-only ledger writer.
* `src/src/hooks/IntentMapPostHook.ts` — the derived intent → files index.

File I/O is modelled by passing file contents (or a path-indexed
`FileState` map) as explicit inputs; the VS Code confirmation modal and
the caller-supplied `askForAuthorization` channel are modelled by the
`Ui` structure, and `check` additionally returns the list of messages it
showed through the host modal.  The SHA-256 primitive
(`contentHashSha256` in `src/utils/contentHash.ts`, a thin wrapper over
node's crypto) is treated as an abstract parameter `hashFn` of the
embedding, since the gatekeeper only ever compares its outputs.
-/

namespace RooHooks

/-! ## String utilities shared by the hooks

JavaScript string helpers, re-implemented on `List Char` so proofs can
proceed by list induction.  `jsTrim` models `String.prototype.trim`,
`splitLines` models `split(/\r?\n/)`.
-/

/-- Characters treated as whitespace by the embedding of `trim` /
regex `\s` (the JS set also has `\v`, `\f`, NBSP, …, which never occur in
the inputs the hooks handle). -/
def isWS (c : Char) : Bool := c.isWhitespace

/-- Trim from the front of a char list. -/
def trimLeftChars (cs : List Char) : List Char := cs.dropWhile isWS

/-- Trim from the back of a char list. -/
def trimRightChars (cs : List Char) : List Char :=
  (cs.reverse.dropWhile isWS).reverse

/-- JS `trim` on char lists. -/
def trimChars (cs : List Char) : List Char := trimRightChars (trimLeftChars cs)

/-- JS `String.prototype.trim`. -/
def jsTrim (s : String) : String := String.mk (trimChars s.data)

/-- Split a char list at `'\n'` characters (every occurrence separates;
a trailing newline produces a final empty piece). -/
def splitChars : List Char → List (List Char)
  | [] => [[]]
  | c :: rest =>
    if c = '\n' then [] :: splitChars rest
    else
      match splitChars rest with
      | [] => [[c]]
      | l :: ls => (c :: l) :: ls

/-- Join char lists with `'\n'`; left inverse of `splitChars`. -/
def joinChars : List (List Char) → List Char
  | [] => []
  | [l] => l
  | l :: ls => l ++ '\n' :: joinChars ls

/-- Drop one trailing `'\r'`, as `split(/\r?\n/)` swallows a CR that
directly precedes the LF. -/
def stripCR (cs : List Char) : List Char :=
  if cs.getLast? = some '\r' then cs.dropLast else cs

/-- JS `split(/\r?\n/)` as used by every line-oriented parser in the hooks. -/
def splitLines (s : String) : List String :=
  ((splitChars s.data).map stripCR).map String.mk

/-- JS `String.prototype.startsWith`, evaluated on the char lists (the
core `String.startsWith` does not reduce in the kernel). -/
def strStartsWith (s pre : String) : Bool := pre.data.isPrefixOf s.data

/-- JS `String.prototype.slice(n)` on the hooks' ASCII markers,
evaluated on the char lists. -/
def strDrop (s : String) (n : Nat) : String := String.mk (s.data.drop n)

/-- JS `Set.prototype.add`: append if not already present. -/
def setAdd (l : List String) (x : String) : List String :=
  if l.contains x then l else l ++ [x]

/-- JS `Map.prototype.get` on an insertion-ordered association list. -/
def mapGet (m : List (String × List String)) (k : String) : Option (List String) :=
  (m.find? (fun kv => kv.1 == k)).map (fun kv => kv.2)

/-- JS `Map.prototype.set`: update in place if the key exists, else append. -/
def mapSet (m : List (String × List String)) (k : String) (v : List String) :
    List (String × List String) :=
  match m with
  | [] => [(k, v)]
  | kv :: rest => if kv.1 == k then (k, v) :: rest else kv :: mapSet rest k v

/-- Lexicographic comparison of char lists (the order JS
`Array.prototype.sort()` uses on these ASCII path strings). -/
def listCharLe : List Char → List Char → Bool
  | [], _ => true
  | _ :: _, [] => false
  | c :: cs, d :: ds => if c = d then listCharLe cs ds else decide (c < d)

/-- The string order JS `Array.prototype.sort()` sorts by, as a
relation. -/
def strLe (a b : String) : Prop := listCharLe a.data b.data = true

instance : DecidableRel strLe :=
  fun a b => inferInstanceAs (Decidable (listCharLe a.data b.data = true))

/-- JS `Array.prototype.sort()` on strings (lexicographic; an insertion
sort, which computes the same sorted result). -/
def sortStrings (l : List String) : List String :=
  l.insertionSort strLe

/-! ## Gatekeeper data model (`src/src/hooks/types.ts`) -/

/-- `ToolClassification` from `types.ts`. -/
inductive ToolClassification
  | safe
  | destructive
deriving DecidableEq, Repr

/-- `HookErrorType` from `types.ts`.  The spec refers to these kinds by
the names `MISSING_INTENT` (= `MISSING_OR_INVALID_INTENT`),
`INTENT_EXCLUDED` (= `INTENT_IGNORED`), `INTENT_MISMATCH`
(= `HOOK_BLOCKED`), `PATH_EXCLUDED` (= `INTENTIGNORE_PATH_BLOCKED`),
`SCOPE_VIOLATION` and `STALE_TARGET` (= `STALE_FILE`). -/
inductive HookErrorType
  | MISSING_OR_INVALID_INTENT
  | SCOPE_VIOLATION
  | INTENT_IGNORED
  | INTENTIGNORE_PATH_BLOCKED
  | HOOK_BLOCKED
  | STALE_FILE
deriving DecidableEq, Repr

/-- `HookResult` from `types.ts`. -/
structure HookResult where
  allow : Bool
  error : Option String := none
  classification : Option ToolClassification := none
  errorType : Option HookErrorType := none
  recoverable : Option Bool := none
  actionHint : Option String := none
deriving DecidableEq, Repr

/-- The operation payload: the string-valued entries of
`toolUse.nativeArgs` and `toolUse.params` (the only entries the
gatekeeper reads; non-string values behave like absent ones). -/
structure ToolUse where
  nativeArgs : List (String × String)
  params : List (String × String)
deriving Repr

/-- First string value bound to `key`, as `args?.[key]`. -/
def argLookup (args : List (String × String)) (key : String) : Option String :=
  (args.find? (fun kv => kv.1 == key)).map (fun kv => kv.2)

/-- One entry of `active_intents.yaml` as the gatekeeper reads it. -/
structure ActiveIntent where
  id : String
  owned_scope : Option (List String) := none
deriving DecidableEq, Repr

/-- Parsed shape of `active_intents.yaml` (`ActiveIntentsData`). -/
structure ActiveIntentsData where
  active_intents : Option (List ActiveIntent) := none
deriving DecidableEq, Repr

/-- `intentsData?.active_intents || []` where `none` at the outer level
models `loadIntents` failing (missing file or parse error). -/
def activeIntentsOf : Option ActiveIntentsData → List ActiveIntent
  | none => []
  | some d => d.active_intents.getD []

/-- State of one file on disk, as seen by the staleness check:
missing, unreadable (read throws), or readable content. -/
inductive FileState
  | absent
  | unreadable
  | content (text : String)
deriving DecidableEq, Repr

/-- The two confirmation channels of
`requestHitlForDestructiveDenial`: the optional caller-supplied
`askForAuthorization` callback, and the VS Code
`showWarningMessage(…, "Approve", "Reject")` modal (its result is the
button title, or `none` when dismissed). -/
structure Ui where
  askForAuthorization : Option (String → Bool)
  hostWarningChoice : String → Option String

/-- Everything `IntentGatekeeperHook.check` reads: the operation, the
declared-intent session state, the parsed intent store (`none` =
`loadIntents` failed), the contents of the two `.intentignore`
candidate locations (`none` = unreadable/missing), the filesystem for
staleness, and the confirmation channels. -/
structure CheckInput where
  toolName : String
  toolUse : ToolUse
  activeIntentId : Option String
  intentsData : Option ActiveIntentsData
  orchestrationIgnore : Option String
  rootIgnore : Option String
  fs : String → FileState
  ui : Ui

/-! ## Gatekeeper embedding (`IntentGatekeeperHook.ts`) -/

/-- `TOOLS_REQUIRING_INTENT`. -/
def TOOLS_REQUIRING_INTENT : List String :=
  ["write_to_file", "edit", "edit_file", "search_replace", "apply_diff",
   "apply_patch", "execute_command"]

/-- `EXEMPT_TOOLS`. -/
def EXEMPT_TOOLS : List String :=
  ["select_active_intent", "read_file", "list_files", "search_files",
   "codebase_search", "read_command_output", "ask_followup_question",
   "switch_mode", "new_task", "update_todo_list", "attempt_completion",
   "use_mcp_tool", "access_mcp_resource", "run_slash_command", "skill",
   "generate_image"]

/-- `classifyTool`: exempt tools are safe, intent-requiring tools are
destructive, everything else defaults to safe. -/
def classifyTool (toolName : String) : ToolClassification :=
  if EXEMPT_TOOLS.contains toolName then ToolClassification.safe
  else if TOOLS_REQUIRING_INTENT.contains toolName then ToolClassification.destructive
  else ToolClassification.safe

/-- `normalizePath`: `replace(/\\/g, "/")` then `replace(/^\.\//, "")`. -/
def normalizePath (filePath : String) : String :=
  let slashes := filePath.data.map (fun c => if c = '\\' then '/' else c)
  String.mk (match slashes with
    | '.' :: '/' :: rest => rest
    | other => other)

/-- One atom of the compiled glob: a literal character, `*`
(compiled to `[^/]*`), or `**` (compiled to `.*`). -/
inductive GlobAtom
  | lit (c : Char)
  | star
  | dstar
deriving DecidableEq, Repr

/-- Compile a normalized glob pattern, mirroring the regex build in
`matchesPattern`: `\*\*` pairs are replaced first (left to right), then
single `*`; every other character is matched literally (the regex
escaping step only protects metacharacters). -/
def compileGlob : List Char → List GlobAtom
  | [] => []
  | '*' :: '*' :: rest => GlobAtom.dstar :: compileGlob rest
  | '*' :: rest => GlobAtom.star :: compileGlob rest
  | c :: rest => GlobAtom.lit c :: compileGlob rest

/-- JS regex `.` (as produced for `**` → `.*`) matches any character
except a line terminator. -/
def isLineTerminator (c : Char) : Bool :=
  c = '\n' || c = '\r' || c = '\u2028' || c = '\u2029'

/-- Backtracking matcher for the anchored regex `matchesPattern`
builds: `lit c` consumes exactly `c`, `star` (`[^/]*`) consumes any run
of non-`/` characters, `dstar` (`.*`) consumes any run of
non-line-terminator characters.  (Structured as nested structural
recursions so that the kernel can evaluate it.) -/
def globMatch : List GlobAtom → List Char → Bool
  | [] => fun ds => ds.isEmpty
  | GlobAtom.lit c :: ps => fun ds =>
    match ds with
    | [] => false
    | d :: rest => c = d && globMatch ps rest
  | GlobAtom.star :: ps =>
    let rec starGo (tailMatch : List Char → Bool) : List Char → Bool
      | [] => tailMatch []
      | d :: rest => tailMatch (d :: rest) || (!(d = '/') && starGo tailMatch rest)
    starGo (globMatch ps)
  | GlobAtom.dstar :: ps =>
    let rec dstarGo (tailMatch : List Char → Bool) : List Char → Bool
      | [] => tailMatch []
      | d :: rest => tailMatch (d :: rest) || (!isLineTerminator d && dstarGo tailMatch rest)
    dstarGo (globMatch ps)

/-- `matchesPattern`: both sides are normalized; a `*`-free pattern must
equal the target exactly, otherwise the compiled glob is matched against
the whole target. -/
def matchesPattern (targetPath pattern : String) : Bool :=
  let normalizedTarget := normalizePath targetPath
  let normalizedPattern := normalizePath pattern
  if !(normalizedPattern.data.contains '*') then normalizedTarget == normalizedPattern
  else globMatch (compileGlob normalizedPattern.data) normalizedTarget.data

/-- `matchesAnyPattern`. -/
def matchesAnyPattern (targetPath : String) (patterns : List String) : Bool :=
  patterns.any (fun pattern => matchesPattern targetPath pattern)

/-- `IntentIgnorePolicy`. -/
structure IntentIgnorePolicy where
  ignoredIntents : List String
  ignoredPathPatterns : List String
deriving DecidableEq, Repr

/-- Processing of one raw `.intentignore` line inside
`parseIntentIgnoreContent`. -/
def parseIgnoreLine (policy : IntentIgnorePolicy) (rawLine : String) : IntentIgnorePolicy :=
  let line := jsTrim rawLine
  if line == "" || strStartsWith line "#" then policy
  else if strStartsWith line "intent:" then
    let intentId := jsTrim (strDrop line "intent:".length)
    if intentId == "" then policy
    else { policy with ignoredIntents := setAdd policy.ignoredIntents intentId }
  else { policy with ignoredPathPatterns := policy.ignoredPathPatterns ++ [normalizePath line] }

/-- `parseIntentIgnoreContent`. -/
def parseIntentIgnoreContent (content : String) (policy : IntentIgnorePolicy) :
    IntentIgnorePolicy :=
  (splitLines content).foldl parseIgnoreLine policy

/-- `readIntentIgnorePolicy`: merge `.orchestration/.intentignore` and
the workspace-root `.intentignore`; a missing file contributes nothing. -/
def readIntentIgnorePolicy (orchestrationIgnore rootIgnore : Option String) :
    IntentIgnorePolicy :=
  let policy : IntentIgnorePolicy := { ignoredIntents := [], ignoredPathPatterns := [] }
  let policy := match orchestrationIgnore with
    | some content => parseIntentIgnoreContent content policy
    | none => policy
  match rootIgnore with
  | some content => parseIntentIgnoreContent content policy
  | none => policy

/-- `PATCH_FILE_MARKERS`. -/
def PATCH_FILE_MARKERS : List String :=
  ["*** Add File: ", "*** Delete File: ", "*** Update File: "]

/-- Path carried by one patch line, if any: the first marker that
prefixes the line wins (the inner `break`), the remainder is trimmed and
normalized, blank remainders are dropped. -/
def patchLinePath (line : String) : Option String :=
  match PATCH_FILE_MARKERS.find? (fun marker => strStartsWith line marker) with
  | some marker =>
    let filePath := jsTrim (strDrop line marker.length)
    if filePath == "" then none else some (normalizePath filePath)
  | none => none

/-- `extractPathsFromPatch`. -/
def extractPathsFromPatch (patchContent : String) : List String :=
  (splitLines patchContent).filterMap patchLinePath

/-- `getTargetPathsForTool`: the `path` field for `write_to_file` /
`apply_diff`, the `file_path` field for `edit` / `edit_file` /
`search_replace`, the parsed patch markers for `apply_patch`, nothing
otherwise.  A field whose trimmed value is empty counts as absent; the
raw value is normalized. -/
def getTargetPathsForTool (toolName : String) (toolUse : ToolUse) : List String :=
  let getPath := fun (key : String) =>
    match argLookup toolUse.nativeArgs key with
    | some value => if (jsTrim value) == "" then none else some (normalizePath value)
    | none =>
      match argLookup toolUse.params key with
      | some value => if (jsTrim value) == "" then none else some (normalizePath value)
      | none => none
  if toolName == "write_to_file" || toolName == "apply_diff" then
    match getPath "path" with
    | some p => [p]
    | none => []
  else if toolName == "edit" || toolName == "edit_file" || toolName == "search_replace" then
    match getPath "file_path" with
    | some p => [p]
    | none => []
  else if toolName == "apply_patch" then
    match argLookup toolUse.nativeArgs "patch" with
    | some patch => extractPathsFromPatch patch
    | none =>
      match argLookup toolUse.params "patch" with
      | some patch => extractPathsFromPatch patch
      | none => []
  else []

/-- `denied`. -/
def denied (error : String) (classification : ToolClassification)
    (errorType : HookErrorType) (actionHint : String) : HookResult :=
  { allow := false
    error := some error
    classification := some classification
    errorType := some errorType
    recoverable := some true
    actionHint := some actionHint }

/-- `requestHitlForDestructiveDenial`: returns whether the user chose to
proceed, together with the list of messages shown through the VS Code
modal (empty when the caller-supplied channel was used instead). -/
def requestHitlForDestructiveDenial (ui : Ui) (errorMessage : String)
    (_classification : ToolClassification) : Bool × List String :=
  let message := errorMessage ++ " This action may be destructive. Proceed anyway?"
  match ui.askForAuthorization with
  | some ask => (ask message, [])
  | none => (ui.hostWarningChoice message == some "Approve", [message])

/-- `TOOLS_WITH_CONTENT_HASH_CHECK`. -/
def TOOLS_WITH_CONTENT_HASH_CHECK : List String :=
  ["write_to_file", "apply_diff", "edit_file", "edit", "search_replace"]

/-- The target-path loop of `checkStaleFile`: the first target that
exists, is readable and hashes differently from the expected digest;
missing and unreadable targets are skipped. -/
def staleScan (hashFn : String → String) (fs : String → FileState)
    (normalizedExpected : String) : List String → Option String
  | [] => none
  | targetPath :: rest =>
    match fs targetPath with
    | FileState.absent => staleScan hashFn fs normalizedExpected rest
    | FileState.unreadable => staleScan hashFn fs normalizedExpected rest
    | FileState.content text =>
      if hashFn text ≠ normalizedExpected then some targetPath
      else staleScan hashFn fs normalizedExpected rest

/-- `checkStaleFile` (Phase 4 optimistic locking): only the tools in
`TOOLS_WITH_CONTENT_HASH_CHECK` are checked; a missing or blank
`expected_content_hash`, or an empty target list, allows; otherwise the
first stale target produces a `STALE_FILE` denial. -/
def checkStaleFile (hashFn : String → String) (fs : String → FileState)
    (toolName : String) (toolUse : ToolUse) : HookResult :=
  if !(TOOLS_WITH_CONTENT_HASH_CHECK.contains toolName) then { allow := true }
  else
    let targetPaths := getTargetPathsForTool toolName toolUse
    if targetPaths.isEmpty then { allow := true }
    else
      match argLookup toolUse.nativeArgs "expected_content_hash" with
      | none => { allow := true }
      | some expectedHash =>
        if jsTrim expectedHash == "" then { allow := true }
        else
          let normalizedExpected := jsTrim expectedHash
          match staleScan hashFn fs normalizedExpected targetPaths with
          | some targetPath =>
            denied ("Stale File: " ++ targetPath ++
                " was modified since you read it. Re-read the file with read_file and try again.")
              ToolClassification.destructive HookErrorType.STALE_FILE "read_file"
          | none => { allow := true }

/-- `INTENT_REQUIRED_ERROR`. -/
def INTENT_REQUIRED_ERROR : String := "You must cite a valid active Intent ID."

/-- The scope-violation denial message of `check` step 5. -/
def scopeViolationMessage (activeIntentId targetPath : String) : String :=
  "Scope Violation: " ++ activeIntentId ++ " is not authorized to edit [" ++
    targetPath ++ "]. Request scope expansion."

/-- The per-path loop of `check` step 5: `.intentignore` path patterns
first, then `owned_scope` (only when non-empty); the first failing path
triggers the HITL channel and then either an allow (approved) or the
corresponding denial.  `none` means every path passed. -/
def pathScan (ui : Ui) (classification : ToolClassification) (activeIntentId : String)
    (policy : IntentIgnorePolicy) (scopePatterns : List String) :
    List String → Option (HookResult × List String)
  | [] => none
  | targetPath :: rest =>
    if matchesAnyPattern targetPath policy.ignoredPathPatterns then
      let msg := "Path " ++ targetPath ++ " is blocked by .intentignore."
      let hitl := requestHitlForDestructiveDenial ui msg classification
      if hitl.1 then some ({ allow := true, classification := some classification }, hitl.2)
      else some (denied msg classification HookErrorType.INTENTIGNORE_PATH_BLOCKED
          "update_intentignore_or_choose_different_file", hitl.2)
    else if scopePatterns.length > 0 && !(matchesAnyPattern targetPath scopePatterns) then
      let msg := scopeViolationMessage activeIntentId targetPath
      let hitl := requestHitlForDestructiveDenial ui msg classification
      if hitl.1 then some ({ allow := true, classification := some classification }, hitl.2)
      else some (denied msg classification HookErrorType.SCOPE_VIOLATION
          "request_scope_expansion", hitl.2)
    else pathScan ui classification activeIntentId policy scopePatterns rest

/-- The shared "missing or invalid intent" branch of `check` (steps 1
and 2): ask the HITL channel, then either allow or deny with
`MISSING_OR_INVALID_INTENT`. -/
def missingIntentResult (ui : Ui) (classification : ToolClassification) :
    HookResult × List String :=
  let hitl := requestHitlForDestructiveDenial ui INTENT_REQUIRED_ERROR classification
  if hitl.1 then ({ allow := true, classification := some classification }, hitl.2)
  else (denied INTENT_REQUIRED_ERROR classification
      HookErrorType.MISSING_OR_INVALID_INTENT "select_active_intent", hitl.2)

/-- The `.intentignore` intent-exclusion branch of `check` (step 3). -/
def intentIgnoredResult (ui : Ui) (classification : ToolClassification)
    (activeIntentId : String) : HookResult × List String :=
  let msg := "Intent " ++ activeIntentId ++ " is excluded by .intentignore."
  let hitl := requestHitlForDestructiveDenial ui msg classification
  if hitl.1 then ({ allow := true, classification := some classification }, hitl.2)
  else (denied msg classification HookErrorType.INTENT_IGNORED "select_active_intent", hitl.2)

/-- The `write_to_file` intent-echo comparison of `check` (step 4):
`some` is a `HOOK_BLOCKED` denial (returned without any HITL prompt). -/
def mismatchCheck (toolName : String) (toolUse : ToolUse)
    (classification : ToolClassification) (activeIntentId : String) :
    Option (HookResult × List String) :=
  if toolName == "write_to_file" then
    match argLookup toolUse.nativeArgs "intent_id" with
    | some callIntentId =>
      if callIntentId ≠ activeIntentId then
        some (denied ("write_to_file intent_id (" ++ callIntentId ++
            ") does not match selected active intent (" ++ activeIntentId ++
            "). Call select_active_intent first or use the same intent_id.")
            classification HookErrorType.HOOK_BLOCKED "select_active_intent", [])
      else none
    | none => none
  else none

/-- `IntentGatekeeperHook.check`, returning the `HookResult` together
with the list of messages shown through the VS Code warning modal. -/
def check (hashFn : String → String) (inp : CheckInput) : HookResult × List String :=
  let classification := classifyTool inp.toolName
  if classification = ToolClassification.safe then
    ({ allow := true, classification := some classification }, [])
  else
    match inp.activeIntentId with
    | none => missingIntentResult inp.ui classification
    | some activeIntentId =>
      if activeIntentId == "" then missingIntentResult inp.ui classification
      else
        match (activeIntentsOf inp.intentsData).find?
            (fun intent => intent.id == activeIntentId) with
        | none => missingIntentResult inp.ui classification
        | some activeIntent =>
          let intentIgnorePolicy :=
            readIntentIgnorePolicy inp.orchestrationIgnore inp.rootIgnore
          if intentIgnorePolicy.ignoredIntents.contains activeIntentId then
            intentIgnoredResult inp.ui classification activeIntentId
          else
            match mismatchCheck inp.toolName inp.toolUse classification activeIntentId with
            | some result => result
            | none =>
              let targetPaths := getTargetPathsForTool inp.toolName inp.toolUse
              let scopePatterns := activeIntent.owned_scope.getD []
              match pathScan inp.ui classification activeIntentId intentIgnorePolicy
                  scopePatterns targetPaths with
              | some result => result
              | none =>
                let staleCheck := checkStaleFile hashFn inp.fs inp.toolName inp.toolUse
                if !staleCheck.allow then (staleCheck, [])
                else ({ allow := true, classification := some classification }, [])


/-- The confirmation channels never grant an override. -/
def NeverApproves (ui : Ui) : Prop :=
  ∀ m c, (requestHitlForDestructiveDenial ui m c).1 = false

/-- Claim C1's condition: no intent is declared (absent or empty
string), or no stored intent has exactly the declared id — including a
failed store load, which yields the empty intent list. -/
def intentMissingOrNotFound (inp : CheckInput) : Prop :=
  match inp.activeIntentId with
  | none => True
  | some id =>
    id = "" ∨ (activeIntentsOf inp.intentsData).find? (fun intent => intent.id == id) = none

/-- `sub` occurs as a contiguous substring of `s`. -/
def ContainsSub (s sub : String) : Prop := ∃ a b, s = a ++ sub ++ b

/-- A stand-in for the external SHA-256 wrapper in witnesses: any
function of the content works for the gatekeeper, which only compares
digest strings. -/
def hashFnFixture : String → String := fun text => "sha256:" ++ text

/-- A confirmation environment that always declines. -/
def uiDeclineFixture : Ui :=
  { askForAuthorization := some (fun _ => false), hostWarningChoice := fun _ => none }

/-- A confirmation environment with no caller-supplied channel whose
host modal answers "Approve". -/
def uiHostApproveFixture : Ui :=
  { askForAuthorization := none, hostWarningChoice := fun _ => some "Approve" }

/-- A confirmation environment with no caller-supplied channel whose
host modal is dismissed. -/
def uiHostDismissFixture : Ui :=
  { askForAuthorization := none, hostWarningChoice := fun _ => none }

/-- Base concrete gatekeeper input for witnesses: a `write_to_file` with
no declared intent, no stores, an empty filesystem, declining UI. -/
def baseInput : CheckInput :=
  { toolName := "write_to_file"
    toolUse := { nativeArgs := [("path", "test.ts")], params := [] }
    activeIntentId := none
    intentsData := none
    orchestrationIgnore := none
    rootIgnore := none
    fs := fun _ => FileState.absent
    ui := uiDeclineFixture }

/-- Concrete input for the C1 witness: declared id "int-001", stored
intent "INT-001". -/
def caseSensitivityInput : CheckInput :=
  { baseInput with
    activeIntentId := some "int-001"
    intentsData := some { active_intents := some [{ id := "INT-001" }] } }

/-- Concrete input for the C3 witness: intent INT-001 declared and
stored with a wildcard scope, excluded by an `.intentignore` holding the
line `intent:INT-001`. -/
def exclusionInput : CheckInput :=
  { baseInput with
    activeIntentId := some "INT-001"
    intentsData := some { active_intents := some [{ id := "INT-001", owned_scope := some ["**"] }] }
    orchestrationIgnore := some "intent:INT-001" }

/-- Stored intents for the C4 scenario: INT-001 owns `src/**`. -/
def scopeIntentData : Option ActiveIntentsData :=
  some { active_intents := some [{ id := "INT-001", owned_scope := some ["src/**"] }] }

/-- C4 scenario: a write to `src/a.ts` under INT-001. -/
def scopeAllowInput : CheckInput :=
  { baseInput with
    activeIntentId := some "INT-001"
    intentsData := scopeIntentData
    toolUse := { nativeArgs := [("path", "src/a.ts")], params := [] } }

/-- C4 scenario: a write to `docs/a.md` under INT-001. -/
def scopeDenyInput : CheckInput :=
  { baseInput with
    activeIntentId := some "INT-001"
    intentsData := scopeIntentData
    toolUse := { nativeArgs := [("path", "docs/a.md")], params := [] } }


/-- Concrete input for claim C2: an `apply_patch` under a valid intent
with an extractable target path and an expected digest that differs
from the digest of the on-disk content. -/
def patchStaleInput : CheckInput :=
  { baseInput with
    toolName := "apply_patch"
    activeIntentId := some "INT-001"
    intentsData := some { active_intents := some [{ id := "INT-001" }] }
    toolUse := { nativeArgs := [("patch", "*** Update File: a.ts"),
        ("expected_content_hash", "sha256:old")], params := [] }
    fs := fun p => if p = "a.ts" then FileState.content "new content" else FileState.absent }

/-- A filesystem with one readable file `a.ts` containing "new content". -/
def staleFsFixture : String → FileState :=
  fun p => if p = "a.ts" then FileState.content "new content" else FileState.absent

/-- A `write_to_file` payload carrying an expected digest "sha256:old". -/
def staleToolUseFixture : ToolUse :=
  { nativeArgs := [("path", "a.ts"), ("expected_content_hash", "sha256:old")], params := [] }

/-! ## Ledger embedding (`AgentTracePostHook.ts`)

The trace file is modelled as a `String`; a call appends one serialized
JSON line.  `JSON.stringify` is embedded as explicit concatenation in
the object-literal field order of the source, with `jsonEscape`
implementing the string-escaping rules of `JSON.stringify` (quote,
backslash, the named control escapes, `\u00XX` for other control
characters). -/

/-- Decimal digit character, as `JSON.stringify` renders integers. -/
def digitChar (n : Nat) : Char :=
  match n % 10 with
  | 0 => '0' | 1 => '1' | 2 => '2' | 3 => '3' | 4 => '4'
  | 5 => '5' | 6 => '6' | 7 => '7' | 8 => '8' | _ => '9'

/-- Decimal rendering of a `Nat` (fuel-structured so the kernel can
evaluate it); `natDigitsAux (n+1) n []` always has enough fuel. -/
def natDigitsAux : Nat → Nat → List Char → List Char
  | 0, _, acc => acc
  | fuel + 1, n, acc =>
    if n < 10 then digitChar n :: acc
    else natDigitsAux fuel (n / 10) (digitChar n :: acc)

/-- Decimal rendering of a `Nat`. -/
def natToString (n : Nat) : String := String.mk (natDigitsAux (n + 1) n [])

/-- Lower-case hex digit. -/
def hexDigit (n : Nat) : Char :=
  match n % 16 with
  | 0 => '0' | 1 => '1' | 2 => '2' | 3 => '3' | 4 => '4'
  | 5 => '5' | 6 => '6' | 7 => '7' | 8 => '8' | 9 => '9'
  | 10 => 'a' | 11 => 'b' | 12 => 'c' | 13 => 'd' | 14 => 'e' | _ => 'f'

/-- `JSON.stringify` escaping of one character. -/
def escapeJsonChar (c : Char) : String :=
  if c = '"' then "\\\"" else if c = '\\' then "\\\\"
  else if c = '\n' then "\\n" else if c = '\r' then "\\r" else if c = '\t' then "\\t"
  else if c = '\x08' then "\\b" else if c = '\x0c' then "\\f"
  else if c.val < 0x20 then
    "\\u00" ++ String.mk [hexDigit (c.val.toNat / 16), hexDigit (c.val.toNat % 16)]
  else String.mk [c]

/-- `JSON.stringify` escaping of a string body. -/
def jsonEscape (s : String) : String :=
  (s.data.map escapeJsonChar).foldr (fun a b => a ++ b) ""

/-- A `JSON.stringify`-rendered string literal. -/
def jsonStr (s : String) : String := "\"" ++ jsonEscape s ++ "\""

/-- Params of a successful `write_to_file` as the trace hook reads
them (`WriteToFileTraceParams`; `none` models an absent field). -/
structure TraceParams where
  path : String
  content : Option String := none
  intent_id : Option String := none

/-- The ambient state `runAgentTracePostHook` reads: the session's
active intent, the filesystem (keyed by the relative path, the `cwd`
resolution being fixed), and the external sources of the entry's
metadata — `randomUUID`, the ISO timestamp, `getCurrentRevision`
(null on failure) and `task.api?.getModel?.()?.id`. -/
structure TraceWorld where
  activeIntentId : Option String := none
  fs : String → FileState
  uuid : String
  timestamp : String
  revisionId : Option String := none
  modelId : Option String := none
  taskId : String

/-- The content whose digest the entry records: the file on disk,
falling back to the tool-provided content (or "") if the read fails. -/
def traceContent (w : TraceWorld) (params : TraceParams) : String :=
  match w.fs params.path with
  | FileState.content text => text
  | _ =>
    match params.content with
    | some text => text
    | none => ""

/-- `content.split("\n").length`, guarded exactly as in the source. -/
def endLineOf (content : String) : Nat :=
  let lines := splitChars content.data
  if lines.length > 0 then lines.length else 1

/-- The `"related"` fragment of a serialized trace entry. -/
def relatedFragment (intentId : String) : String :=
  "\"related\":[\x7b\"type\":\"specification\",\"value\":" ++ jsonStr intentId ++ "\x7d]"

/-- One serialized `AgentTraceEntry`, in the field order of the object
literal in `runAgentTracePostHook` (rendered by `JSON.stringify`). -/
def traceLine (hashFn : String → String) (w : TraceWorld) (params : TraceParams)
    (intentId : String) : String :=
  let content := traceContent w params
  let contentHash := hashFn content
  let endLine := endLineOf content
  "\x7b\"id\":" ++ jsonStr w.uuid ++
    ",\"timestamp\":" ++ jsonStr w.timestamp ++
    ",\"vcs\":\x7b\"revision_id\":" ++
    (match w.revisionId with
      | some revision => jsonStr revision
      | none => "null") ++
    "\x7d,\"files\":[\x7b\"relative_path\":" ++ jsonStr params.path ++
    ",\"conversations\":[\x7b\"url\":" ++ jsonStr w.taskId ++
    ",\"contributor\":\x7b\"entity_type\":\"AI\",\"model_identifier\":" ++
    jsonStr (w.modelId.getD "unknown") ++
    "\x7d,\"ranges\":[\x7b\"start_line\":1,\"end_line\":" ++ natToString endLine ++
    ",\"content_hash\":" ++ jsonStr contentHash ++ "\x7d]," ++
    relatedFragment intentId ++ "\x7d]\x7d]\x7d"

/-- `runAgentTracePostHook` on the success path: a no-op when the
effective intent id (`params.intent_id ?? task.activeIntentId`) is
absent or empty, else appending one newline-terminated record. -/
def runAgentTracePostHook (hashFn : String → String) (w : TraceWorld)
    (params : TraceParams) (ledger : String) : String :=
  match params.intent_id <|> w.activeIntentId with
  | none => ledger
  | some intentId =>
    if intentId == "" then ledger
    else ledger ++ traceLine hashFn w params intentId ++ "\n"

/-- A sequence of ledger appends. -/
def applyTraceCalls (hashFn : String → String) (calls : List (TraceWorld × TraceParams))
    (ledger : String) : String :=
  calls.foldl (fun led c => runAgentTracePostHook hashFn c.1 c.2 led) ledger

/-- The line a successful call appends. -/
def traceLineOf (hashFn : String → String) (c : TraceWorld × TraceParams) : String :=
  traceLine hashFn c.1 c.2 ((c.2.intent_id <|> c.1.activeIntentId).getD "")

/-- A call whose effective intent id is present and non-empty. -/
def successfulCall (c : TraceWorld × TraceParams) : Prop :=
  ∃ id, (c.2.intent_id <|> c.1.activeIntentId) = some id ∧ id ≠ ""

/-- A concrete successful ledger call for the C8 witness. -/
def traceCallFixture : TraceWorld × TraceParams :=
  ({ activeIntentId := some "INT-001"
     fs := fun _ => FileState.content "const x = 1\n"
     uuid := "u1"
     timestamp := "2026-10-11T00:00:00.000Z"
     revisionId := none
     modelId := none
     taskId := "task-1" },
   { path := "src/a.ts" })

/-! ## Intent-map embedding (IntentMapPostHook.ts) -/

/-- An entry of `active_intents.yaml` as `resolveIntentTitle` reads it. -/
structure MapIntent where
  id : String
  name : Option String := none

/-- `resolveIntentTitle`: `"id: name"` when the intent is found and its
trimmed name is non-empty, else the raw intent id (`none` for the
intents file missing or unparsable). -/
def resolveIntentTitle (intents : Option (List MapIntent)) (intentId : String) : String :=
  match intents with
  | none => intentId
  | some l =>
    match l.find? (fun i => i.id == intentId) with
    | some intent =>
      match intent.name with
      | some nm => if jsTrim nm == "" then intentId else intent.id ++ ": " ++ jsTrim nm
      | none => intentId
    | none => intentId

/-- The backtick character (`LIST_ITEM_RE` delimiter). -/
def tickChar : Char := Char.ofNat 96

/-- `SECTION_HEADER_RE = /^##\s+(.+)$/` applied to one line, returning
the trimmed capture as `parseIntentMap` uses it.  After `##` there must
be at least one whitespace character; the greedy `\s+` leaves the
remainder after the whitespace run as the capture when it is non-empty
(it must then contain no line terminator, which `.` does not match), and
when the whole tail is whitespace it backs off one character, so a tail
of two or more whitespace characters still matches with a capture that
trims to the empty string. -/
def sectionHeaderTitle (line : String) : Option String :=
  match line.data with
  | '#' :: '#' :: c :: cs =>
    if isWS c then
      match (c :: cs).dropWhile isWS with
      | [] =>
        match cs with
        | [] => none
        | _ :: _ =>
          if isLineTerminator ((c :: cs).getLastD c) then none else some ""
      | r :: rs =>
        if (r :: rs).any isLineTerminator then none
        else some (String.mk (trimChars (r :: rs)))
    else none
  | _ => none

/-- `LIST_ITEM_RE = /^-\s+`([^`]+)`\s*$/` applied to one line: a dash,
whitespace, a backtick-delimited non-empty capture without backticks,
then only whitespace to the end of the line. -/
def listItemPath (line : String) : Option String :=
  match line.data with
  | '-' :: c :: cs =>
    if isWS c then
      match (c :: cs).dropWhile isWS with
      | t :: rest =>
        if t = tickChar then
          match rest.takeWhile (fun ch => ch != tickChar),
              rest.dropWhile (fun ch => ch != tickChar) with
          | cap :: caps, _ :: trail =>
            if trail.all isWS then some (String.mk (cap :: caps)) else none
          | _, _ => none
        else none
      | [] => none
    else none
  | _ => none

/-- The line loop of `parseIntentMap`: `cur` is the open section
(`currentTitle`/`currentPaths`), closed sections are emitted in order.
A header closes the open section and opens a new one; a list item adds
its capture to the open section's path set; the open section is closed
at end of input. -/
def parseLinesGo : Option (String × List String) → List String → List (String × List String)
  | cur, [] =>
    match cur with
    | some s => [s]
    | none => []
  | cur, line :: rest =>
    match sectionHeaderTitle line with
    | some t =>
      match cur with
      | some s => s :: parseLinesGo (some (t, [])) rest
      | none => parseLinesGo (some (t, [])) rest
    | none =>
      match listItemPath line with
      | some p =>
        match cur with
        | some s => parseLinesGo (some (s.1, setAdd s.2 p)) rest
        | none => parseLinesGo none rest
      | none => parseLinesGo cur rest

/-- The result of `parseIntentMap`: section titles in encounter order
and the title-to-paths map. -/
structure ParsedMap where
  order : List String
  sections : List (String × List String)
deriving DecidableEq

/-- `parseIntentMap`. -/
def parseIntentMap (content : String) : ParsedMap :=
  let raw := parseLinesGo none (splitLines content)
  { order := raw.map Prod.fst
    sections := raw.foldl (fun m s => mapSet m s.1 s.2) [] }

/-- JS `String.prototype.trimEnd` on char lists. -/
def jsTrimEnd (cs : List Char) : List Char := (cs.reverse.dropWhile isWS).reverse

/-- `replace(/\n{3,}/g, "\n\n")` as a left-to-right scan: `k` counts
the newlines already kept from the current run, and a run's newlines
beyond the second are dropped. -/
def collapseNL : Nat → List Char → List Char
  | _, [] => []
  | k, c :: rest =>
    if c = '\n' then
      if 2 ≤ k then collapseNL k rest
      else '\n' :: collapseNL (k + 1) rest
    else c :: collapseNL 0 rest

/-- The rendering of one path into its Markdown list item line. -/
def itemLine (p : String) : String := "- `" ++ p ++ "`"

/-- The lines one `order` entry contributes to the serialized map:
header, blank, and (when the title is in the map, JS `if (paths)` being
true for any `Set`) the sorted path items followed by a blank. -/
def sectionLines (sections : List (String × List String)) (title : String) : List String :=
  ("## " ++ title) :: "" ::
    (match mapGet sections title with
     | some ps => (sortStrings ps).map itemLine ++ [""]
     | none => [])

/-- The full line list `serializeIntentMap` builds before joining:
the fixed preamble followed by each section's lines. -/
def serialLines (order : List String) (sections : List (String × List String)) : List String :=
  "# Intent Map" :: "" ::
    "Maps business intents to files. Updated when INTENT_EVOLUTION occurs." :: "" ::
    order.foldr (fun t acc => sectionLines sections t ++ acc) []

/-- `serializeIntentMap`: the lines joined with newlines, runs of three
or more newlines collapsed to two, trailing whitespace trimmed and a
final newline appended. -/
def serializeIntentMap (order : List String) (sections : List (String × List String)) : String :=
  String.mk (jsTrimEnd (collapseNL 0
    (joinChars ((serialLines order sections).map String.data)))) ++ "\n"

/-- The parse of the existing map file: `none` models the read failing
(missing or malformed file), in which case the hook starts fresh. -/
def parseExisting : Option String → ParsedMap
  | some content => parseIntentMap content
  | none => ParsedMap.mk [] []

/-- `IntentMapPostHookParams`. -/
structure IntentMapParams where
  intent_id : String
  path : String

/-- `runIntentMapPostHook` on the success path, as a pure function of
the parsed intents file (`none` when missing or unparsable), the params
and the existing map file content (`none` when missing or unreadable):
returns the content written back. -/
def runIntentMapPostHook (intents : Option (List MapIntent)) (params : IntentMapParams)
    (existing : Option String) : String :=
  let sectionTitle := resolveIntentTitle intents params.intent_id
  let parsed := parseExisting existing
  match parsed.order.find? (fun t =>
      t == params.intent_id || strStartsWith t (params.intent_id ++ ": ")) with
  | some existingTitle =>
    let ps := (mapGet parsed.sections existingTitle).getD []
    serializeIntentMap parsed.order (mapSet parsed.sections existingTitle (setAdd ps params.path))
  | none =>
    serializeIntentMap (parsed.order ++ [sectionTitle])
      (mapSet parsed.sections sectionTitle [params.path])

/-- `Nodup` as an executable check. -/
def nodupB : List String → Bool
  | [] => true
  | x :: xs => !xs.contains x && nodupB xs

/-- Well-formedness of a section title for exact serialize/parse
roundtripping: trim-fixed, non-empty, no line terminators. -/
def WFTitleB (t : String) : Bool :=
  (jsTrim t == t) && !(t == "") && t.data.all (fun c => !isLineTerminator c)

/-- Well-formedness of a path for exact serialize/parse roundtripping:
non-empty, no backticks, no newlines. -/
def WFPathB (p : String) : Bool :=
  !(p == "") && p.data.all (fun c => !(c == tickChar) && !(c == '\n'))

/-- Well-formedness of an `(order, sections)` state: distinct titles,
each well-formed and mapped to a non-empty duplicate-free list of
well-formed paths. -/
def WFstateB (order : List String) (sections : List (String × List String)) : Bool :=
  nodupB order && order.all (fun t => WFTitleB t &&
    (match mapGet sections t with
     | some ps => !(ps == []) && nodupB ps && ps.all WFPathB
     | none => false))

/-! ## Generic facts about the gatekeeper's branches -/

theorem pathScan_result (ui : Ui) (c : ToolClassification) (id : String)
    (policy : IntentIgnorePolicy) (pats : List String) :
    ∀ ps r prompts, pathScan ui c id policy pats ps = some (r, prompts) →
      r = { allow := true, classification := some c } ∨
      r.errorType = some HookErrorType.INTENTIGNORE_PATH_BLOCKED ∨
      r.errorType = some HookErrorType.SCOPE_VIOLATION := by
  intro ps
  induction ps with
  | nil => intro r prompts h; simp [pathScan] at h
  | cons p rest ih =>
    intro r prompts h
    simp only [pathScan] at h
    split at h
    · split at h <;> simp only [Option.some.injEq, Prod.mk.injEq] at h <;>
        rcases h with ⟨h1, h2⟩ <;> subst h1 <;> simp [denied]
    · split at h
      · split at h <;> simp only [Option.some.injEq, Prod.mk.injEq] at h <;>
          rcases h with ⟨h1, h2⟩ <;> subst h1 <;> simp [denied]
      · exact ih r prompts h

theorem pathScan_none_ui (ui ui2 : Ui) (c : ToolClassification) (id : String)
    (policy : IntentIgnorePolicy) (pats : List String) :
    ∀ ps, pathScan ui c id policy pats ps = none ↔ pathScan ui2 c id policy pats ps = none := by
  intro ps
  induction ps with
  | nil => simp [pathScan]
  | cons p rest ih =>
    simp only [pathScan]
    split
    · constructor <;> intro h <;> (split at h <;> simp at h)
    · split
      · constructor <;> intro h <;> (split at h <;> simp at h)
      · exact ih

theorem checkStaleFile_result (hashFn : String → String) (fs : String → FileState)
    (toolName : String) (toolUse : ToolUse) :
    checkStaleFile hashFn fs toolName toolUse = { allow := true } ∨
      ((checkStaleFile hashFn fs toolName toolUse).allow = false ∧
        (checkStaleFile hashFn fs toolName toolUse).errorType = some HookErrorType.STALE_FILE) := by
  unfold checkStaleFile
  dsimp only
  split
  · exact Or.inl rfl
  · split
    · exact Or.inl rfl
    · split
      · exact Or.inl rfl
      · split
        · exact Or.inl rfl
        · split
          · right; simp [denied]
          · exact Or.inl rfl

theorem staleScan_eq_none_iff (hashFn : String → String) (fs : String → FileState)
    (expected : String) :
    ∀ ps, staleScan hashFn fs expected ps = none ↔
      ∀ p ∈ ps, ∀ text, fs p = FileState.content text → hashFn text = expected := by
  intro ps
  induction ps with
  | nil => simp [staleScan]
  | cons p rest ih =>
    simp only [staleScan]
    rcases hfs : fs p with _ | _ | text <;> simp only [hfs]
    · rw [ih]
      constructor
      · intro h q hq t ht
        rcases List.mem_cons.mp hq with rfl | hq
        · rw [hfs] at ht; cases ht
        · exact h q hq t ht
      · intro h q hq t ht; exact h q (List.mem_cons_of_mem _ hq) t ht
    · rw [ih]
      constructor
      · intro h q hq t ht
        rcases List.mem_cons.mp hq with rfl | hq
        · rw [hfs] at ht; cases ht
        · exact h q hq t ht
      · intro h q hq t ht; exact h q (List.mem_cons_of_mem _ hq) t ht
    · by_cases hcmp : hashFn text = expected
      · rw [if_neg (by simp [hcmp]), ih]
        constructor
        · intro h q hq t ht
          rcases List.mem_cons.mp hq with rfl | hq
          · rw [hfs] at ht; injection ht with ht; subst ht; exact hcmp
          · exact h q hq t ht
        · intro h q hq t ht; exact h q (List.mem_cons_of_mem _ hq) t ht
      · rw [if_pos (by simp [hcmp])]
        refine iff_of_false (by simp) ?_
        intro h
        exact hcmp (h p (List.mem_cons_self _ _) text hfs)


theorem missingIntentResult_of_declined (ui : Ui) (c : ToolClassification)
    (hn : NeverApproves ui) :
    missingIntentResult ui c =
      (denied INTENT_REQUIRED_ERROR c HookErrorType.MISSING_OR_INVALID_INTENT
          "select_active_intent",
        (requestHitlForDestructiveDenial ui INTENT_REQUIRED_ERROR c).2) := by
  unfold missingIntentResult
  dsimp only
  rw [hn]
  simp

theorem intentIgnoredResult_of_declined (ui : Ui) (c : ToolClassification) (id : String)
    (hn : NeverApproves ui) :
    intentIgnoredResult ui c id =
      (denied ("Intent " ++ id ++ " is excluded by .intentignore.") c
          HookErrorType.INTENT_IGNORED "select_active_intent",
        (requestHitlForDestructiveDenial ui
            ("Intent " ++ id ++ " is excluded by .intentignore.") c).2) := by
  unfold intentIgnoredResult
  dsimp only
  rw [hn]
  simp

theorem mismatchCheck_result (toolName : String) (toolUse : ToolUse)
    (c : ToolClassification) (id : String) :
    ∀ r, mismatchCheck toolName toolUse c id = some r →
      r.1.allow = false ∧ r.1.errorType = some HookErrorType.HOOK_BLOCKED ∧ r.2 = [] := by
  intro r h
  unfold mismatchCheck at h
  split at h
  · split at h
    · split at h
      · injection h with h; subst h; simp [denied]
      · cases h
    · cases h
  · cases h


theorem missingIntentResult_of_no_channel (ui : Ui) (c : ToolClassification)
    (h : ui.askForAuthorization = none) :
    (missingIntentResult ui c).2 =
      [INTENT_REQUIRED_ERROR ++ " This action may be destructive. Proceed anyway?"] := by
  obtain ⟨ask, host⟩ := ui
  dsimp only at h
  subst h
  unfold missingIntentResult requestHitlForDestructiveDenial
  dsimp only
  split <;> rfl

theorem intentIgnoredResult_of_no_channel (ui : Ui) (c : ToolClassification) (id : String)
    (h : ui.askForAuthorization = none) :
    (intentIgnoredResult ui c id).2 =
      ["Intent " ++ id ++ " is excluded by .intentignore." ++
        " This action may be destructive. Proceed anyway?"] := by
  obtain ⟨ask, host⟩ := ui
  dsimp only at h
  subst h
  unfold intentIgnoredResult requestHitlForDestructiveDenial
  dsimp only
  split <;> rfl

theorem pathScan_prompts_of_no_channel (ui : Ui) (c : ToolClassification) (id : String)
    (policy : IntentIgnorePolicy) (pats : List String)
    (h : ui.askForAuthorization = none) :
    ∀ ps r prompts, pathScan ui c id policy pats ps = some (r, prompts) → prompts ≠ [] := by
  intro ps
  induction ps with
  | nil => intro r prompts hs; simp [pathScan] at hs
  | cons p rest ih =>
    intro r prompts hs
    simp only [pathScan] at hs
    split at hs
    · simp only [requestHitlForDestructiveDenial, h] at hs
      split at hs <;> simp only [Option.some.injEq, Prod.mk.injEq] at hs <;>
        rcases hs with ⟨h1, h2⟩ <;> subst h2 <;> simp
    · split at hs
      · simp only [requestHitlForDestructiveDenial, h] at hs
        split at hs <;> simp only [Option.some.injEq, Prod.mk.injEq] at hs <;>
          rcases hs with ⟨h1, h2⟩ <;> subst h2 <;> simp
      · exact ih r prompts hs



theorem setAdd_contains_self (l : List String) (x : String) :
    (setAdd l x).contains x = true := by
  unfold setAdd
  split
  · assumption
  · rw [List.contains_eq_any_beq]
    simp

theorem setAdd_contains_mono (l : List String) (x y : String)
    (h : l.contains y = true) : (setAdd l x).contains y = true := by
  unfold setAdd
  split
  · exact h
  · rw [List.contains_eq_any_beq] at *
    simp only [List.any_append, h, Bool.true_or]

theorem parseIgnoreLine_contains_mono (policy : IntentIgnorePolicy) (rawLine : String)
    (y : String) (h : policy.ignoredIntents.contains y = true) :
    (parseIgnoreLine policy rawLine).ignoredIntents.contains y = true := by
  unfold parseIgnoreLine
  dsimp only
  split
  · exact h
  · split
    · split
      · exact h
      · exact setAdd_contains_mono _ _ _ h
    · exact h

theorem foldl_parseIgnoreLine_contains_mono (y : String) :
    ∀ (lines : List String) (policy : IntentIgnorePolicy),
      policy.ignoredIntents.contains y = true →
      (lines.foldl parseIgnoreLine policy).ignoredIntents.contains y = true := by
  intro lines
  induction lines with
  | nil => intro policy h; exact h
  | cons l rest ih =>
    intro policy h
    exact ih _ (parseIgnoreLine_contains_mono _ _ _ h)

theorem parseIgnoreLine_intent_line (policy : IntentIgnorePolicy) (id : String)
    (hid : id ≠ "") (htrim : jsTrim ("intent:" ++ id) = "intent:" ++ id)
    (htrimid : jsTrim id = id) :
    parseIgnoreLine policy ("intent:" ++ id) =
      { policy with ignoredIntents := setAdd policy.ignoredIntents id } := by
  unfold parseIgnoreLine
  dsimp only
  rw [htrim]
  have hne : ("intent:" ++ id) ≠ "" := by
    intro h
    have h2 := congrArg String.data h
    rw [String.data_append] at h2
    simp [String.data] at h2
  have hbeq : (("intent:" ++ id) == "") = false := by simp [hne]
  have hhash : strStartsWith ("intent:" ++ id) "#" = false := by
    unfold strStartsWith
    rw [String.data_append]
    rfl
  have hint : strStartsWith ("intent:" ++ id) "intent:" = true := by
    unfold strStartsWith
    rw [String.data_append]
    have h3 : "intent:".data <+: "intent:".data ++ id.data := ⟨id.data, rfl⟩
    exact List.isPrefixOf_iff_prefix.mpr h3
  have hdrop : strDrop ("intent:" ++ id) "intent:".length = id := by
    unfold strDrop
    rw [String.data_append]
    have h3 : "intent:".length = "intent:".data.length := rfl
    rw [h3, List.drop_left]
  rw [hbeq, hhash, hint, hdrop, htrimid]
  have hbeq2 : (id == "") = false := by simp [hid]
  rw [hbeq2]
  simp

theorem foldl_parseIgnoreLine_intent_mem (id : String)
    (hid : id ≠ "") (htrim : jsTrim ("intent:" ++ id) = "intent:" ++ id)
    (htrimid : jsTrim id = id) :
    ∀ (lines : List String) (policy : IntentIgnorePolicy),
      ("intent:" ++ id) ∈ lines →
      (lines.foldl parseIgnoreLine policy).ignoredIntents.contains id = true := by
  intro lines
  induction lines with
  | nil => intro policy h; cases h
  | cons l rest ih =>
    intro policy h
    rcases List.mem_cons.mp h with rfl | h
    · simp only [List.foldl_cons]
      rw [parseIgnoreLine_intent_line policy id hid htrim htrimid]
      exact foldl_parseIgnoreLine_contains_mono id rest _ (setAdd_contains_self _ _)
    · exact ih _ h

theorem check_intent_excluded_denial (hashFn : String → String) (inp : CheckInput)
    (id : String)
    (hd : classifyTool inp.toolName = ToolClassification.destructive)
    (hn : NeverApproves inp.ui)
    (hA : inp.activeIntentId = some id)
    (hid : id ≠ "")
    (hFs : ((activeIntentsOf inp.intentsData).find? (fun intent => intent.id == id)).isSome)
    (hIg : (readIntentIgnorePolicy inp.orchestrationIgnore
        inp.rootIgnore).ignoredIntents.contains id = true) :
    (check hashFn inp).1 =
      denied ("Intent " ++ id ++ " is excluded by .intentignore.")
        ToolClassification.destructive HookErrorType.INTENT_IGNORED "select_active_intent" := by
  have hnotsafe : classifyTool inp.toolName ≠ ToolClassification.safe := by
    rw [hd]; intro h; cases h
  obtain ⟨intent, hF⟩ := Option.isSome_iff_exists.mp hFs
  unfold check
  dsimp only
  rw [if_neg hnotsafe]
  simp only [hA]
  have hbeq : (id == "") = false := by simp [hid]
  simp only [hbeq, Bool.false_eq_true, if_false, hF, hIg, if_true]
  rw [intentIgnoredResult_of_declined _ _ _ hn, hd]


theorem check_scope_violation_denial (hashFn : String → String) (inp : CheckInput)
    (id : String) (intent : ActiveIntent) (p : String) (rest : List String)
    (hd : classifyTool inp.toolName = ToolClassification.destructive)
    (hn : NeverApproves inp.ui)
    (hA : inp.activeIntentId = some id)
    (hid : id ≠ "")
    (hF : (activeIntentsOf inp.intentsData).find? (fun intent => intent.id == id) = some intent)
    (hIg : (readIntentIgnorePolicy inp.orchestrationIgnore
        inp.rootIgnore).ignoredIntents.contains id = false)
    (hM : mismatchCheck inp.toolName inp.toolUse (classifyTool inp.toolName) id = none)
    (hT : getTargetPathsForTool inp.toolName inp.toolUse = p :: rest)
    (hpats : intent.owned_scope.getD [] ≠ [])
    (hnoign : matchesAnyPattern p (readIntentIgnorePolicy inp.orchestrationIgnore
        inp.rootIgnore).ignoredPathPatterns = false)
    (hnomatch : matchesAnyPattern p (intent.owned_scope.getD []) = false) :
    (check hashFn inp).1 =
      denied (scopeViolationMessage id p) ToolClassification.destructive
        HookErrorType.SCOPE_VIOLATION "request_scope_expansion" := by
  have hnotsafe : classifyTool inp.toolName ≠ ToolClassification.safe := by
    rw [hd]; intro h; cases h
  unfold check
  dsimp only
  rw [if_neg hnotsafe]
  simp only [hA]
  have hbeq : (id == "") = false := by simp [hid]
  simp only [hbeq, Bool.false_eq_true, if_false, hF, hIg, if_false, hM, hT]
  simp only [pathScan, hnoign, Bool.false_eq_true, if_false]
  have hlen : (intent.owned_scope.getD []).length > 0 := List.length_pos.mpr hpats
  have hcond : ((intent.owned_scope.getD []).length > 0 &&
      !(matchesAnyPattern p (intent.owned_scope.getD []))) = true := by
    simp [hlen, hnomatch]
  rw [hcond]
  have hn2 : ∀ m c, (requestHitlForDestructiveDenial inp.ui m c).1 = false := hn
  simp only [if_true, hn2, Bool.false_eq_true, if_false]
  rw [hd]

theorem missingIntentResult_errorTypes (ui : Ui) (c : ToolClassification) :
    (missingIntentResult ui c).1.errorType = none ∨
    (missingIntentResult ui c).1.errorType = some HookErrorType.MISSING_OR_INVALID_INTENT := by
  unfold missingIntentResult
  dsimp only
  split
  · left; rfl
  · right; rfl

theorem intentIgnoredResult_errorTypes (ui : Ui) (c : ToolClassification) (id : String) :
    (intentIgnoredResult ui c id).1.errorType = none ∨
    (intentIgnoredResult ui c id).1.errorType = some HookErrorType.INTENT_IGNORED := by
  unfold intentIgnoredResult
  dsimp only
  split
  · left; rfl
  · right; rfl

theorem check_stale_denial_ui_independent (hashFn : String → String) (inp : CheckInput)
    (ui2 : Ui) (h : (check hashFn inp).1.errorType = some HookErrorType.STALE_FILE) :
    check hashFn { inp with ui := ui2 } = check hashFn inp := by
  unfold check at h ⊢
  dsimp only at h ⊢
  by_cases hsafe : classifyTool inp.toolName = ToolClassification.safe
  · rw [if_pos hsafe] at h
    simp at h
  · rw [if_neg hsafe] at h
    rw [if_neg hsafe, if_neg hsafe]
    rcases hA : inp.activeIntentId with _ | id
    · simp only [hA] at h ⊢
      exfalso
      rcases missingIntentResult_errorTypes inp.ui (classifyTool inp.toolName) with h2 | h2 <;>
        rw [h2] at h <;> simp at h
    · simp only [hA] at h ⊢
      cases hbeq : (id == "")
      · simp only [hbeq, Bool.false_eq_true, if_false] at h ⊢
        rcases hF : (activeIntentsOf inp.intentsData).find? (fun intent => intent.id == id)
          with _ | intent
        · simp only [hF] at h ⊢
          exfalso
          rcases missingIntentResult_errorTypes inp.ui (classifyTool inp.toolName) with h2 | h2 <;>
            rw [h2] at h <;> simp at h
        · simp only [hF] at h ⊢
          cases hIg : (readIntentIgnorePolicy inp.orchestrationIgnore
              inp.rootIgnore).ignoredIntents.contains id
          · simp only [hIg, Bool.false_eq_true, if_false] at h ⊢
            rcases hM : mismatchCheck inp.toolName inp.toolUse (classifyTool inp.toolName) id
              with _ | r
            · simp only [hM] at h ⊢
              rcases hPS : pathScan inp.ui (classifyTool inp.toolName) id
                  (readIntentIgnorePolicy inp.orchestrationIgnore inp.rootIgnore)
                  (intent.owned_scope.getD [])
                  (getTargetPathsForTool inp.toolName inp.toolUse) with _ | rp
              · have hPS2 : pathScan ui2 (classifyTool inp.toolName) id
                    (readIntentIgnorePolicy inp.orchestrationIgnore inp.rootIgnore)
                    (intent.owned_scope.getD [])
                    (getTargetPathsForTool inp.toolName inp.toolUse) = none :=
                  (pathScan_none_ui inp.ui ui2 _ _ _ _ _).mp hPS
                simp only [hPS, hPS2]
              · obtain ⟨rr, pp⟩ := rp
                exfalso
                simp only [hPS] at h
                rcases pathScan_result _ _ _ _ _ _ _ _ hPS with h2 | h2 | h2
                · subst h2; simp at h
                · rw [h2] at h; simp at h
                · rw [h2] at h; simp at h
            · exfalso
              simp only [hM] at h
              have h2 := mismatchCheck_result _ _ _ _ r hM
              rw [h2.2.1] at h
              simp at h
          · simp only [hIg, if_true] at h ⊢
            exfalso
            rcases intentIgnoredResult_errorTypes inp.ui (classifyTool inp.toolName) id
              with h2 | h2 <;> rw [h2] at h <;> simp at h
      · simp only [hbeq, if_true] at h ⊢
        exfalso
        rcases missingIntentResult_errorTypes inp.ui (classifyTool inp.toolName) with h2 | h2 <;>
          rw [h2] at h <;> simp at h

/-! ## Claim theorems -/

/-- C1: for every destructive operation, under override channels that
never approve, `check` denies with `MISSING_OR_INVALID_INTENT` (the
spec's `MISSING_INTENT`) exactly when no intent is declared (absent or
empty) or no stored intent's id is exactly, case-sensitively, equal to
the declared id — where a failed intent-store load behaves as the empty
store; and, moreover, a failed store load is indistinguishable from a
store in which the declared intent is absent: `check` returns the very
same result. -/
theorem C1_missing_intent_characterization :
    (∀ (hashFn : String → String) (inp : CheckInput),
      classifyTool inp.toolName = ToolClassification.destructive →
      NeverApproves inp.ui →
      (((check hashFn inp).1.allow = false ∧
        (check hashFn inp).1.errorType = some HookErrorType.MISSING_OR_INVALID_INTENT) ↔
        intentMissingOrNotFound inp))
    ∧ (∀ (hashFn : String → String) (inp : CheckInput) (d : ActiveIntentsData),
        (∀ id, inp.activeIntentId = some id →
          (activeIntentsOf (some d)).find? (fun intent => intent.id == id) = none) →
        check hashFn { inp with intentsData := none } =
          check hashFn { inp with intentsData := some d }) := by
  constructor
  · intro hashFn inp hd hn
    have hnotsafe : classifyTool inp.toolName ≠ ToolClassification.safe := by
      rw [hd]; intro h; cases h
    unfold check
    dsimp only
    rw [if_neg hnotsafe]
    rcases hA : inp.activeIntentId with _ | id
    · rw [missingIntentResult_of_declined _ _ hn]
      simp [denied, intentMissingOrNotFound, hA]
    · by_cases hid : id = ""
      · subst hid
        rw [missingIntentResult_of_declined _ _ hn]
        simp [denied, intentMissingOrNotFound, hA]
      · have hbeq : (id == "") = false := by simp [hid]
        simp only [hbeq, Bool.false_eq_true, if_false]
        rcases hF : (activeIntentsOf inp.intentsData).find? (fun intent => intent.id == id)
          with _ | intent
        · simp only [hF]
          rw [missingIntentResult_of_declined _ _ hn]
          simp [denied, intentMissingOrNotFound, hA, hF]
        · refine iff_of_false ?_ (by simp [intentMissingOrNotFound, hA, hid, hF])
          simp only [hF]
          cases hIg : (readIntentIgnorePolicy inp.orchestrationIgnore
              inp.rootIgnore).ignoredIntents.contains id
          · simp only [hIg, Bool.false_eq_true, if_false]
            rcases hM : mismatchCheck inp.toolName inp.toolUse (classifyTool inp.toolName) id
              with _ | r
            · simp only [hM]
              rcases hPS : pathScan inp.ui (classifyTool inp.toolName) id
                  (readIntentIgnorePolicy inp.orchestrationIgnore inp.rootIgnore)
                  (intent.owned_scope.getD [])
                  (getTargetPathsForTool inp.toolName inp.toolUse) with _ | rp
              · simp only [hPS]
                rcases checkStaleFile_result hashFn inp.fs inp.toolName inp.toolUse
                  with hS | ⟨hS1, hS2⟩
                · rw [hS]; simp
                · rintro ⟨h1, h2⟩
                  simp only [hS1, Bool.not_false, if_true] at h2
                  rw [hS2] at h2
                  simp at h2
              · obtain ⟨rr, pp⟩ := rp
                simp only [hPS]
                rcases pathScan_result _ _ _ _ _ _ _ _ hPS with h | h | h
                · subst h; rintro ⟨h1, h2⟩; simp at h1
                · rintro ⟨h1, h2⟩; rw [h] at h2; simp at h2
                · rintro ⟨h1, h2⟩; rw [h] at h2; simp at h2
            · simp only [hM]
              have hMr := mismatchCheck_result _ _ _ _ r hM
              rintro ⟨h1, h2⟩
              rw [hMr.2.1] at h2
              simp at h2
          · simp only [hIg, if_true]
            rw [intentIgnoredResult_of_declined _ _ _ hn]
            simp [denied]
  · intro hashFn inp d hfind
    unfold check
    dsimp only
    rcases hA : inp.activeIntentId with _ | id
    · simp [hA]
    · by_cases hid : id = ""
      · subst hid; simp [hA]
      · have h1 : (activeIntentsOf (none : Option ActiveIntentsData)).find?
            (fun intent => intent.id == id) = none := rfl
        have h2 := hfind id hA
        simp [hA, hid, h1, h2]

/-- Witness for C1: the declared id "int-001" does not match the stored
intent "INT-001" case-sensitively, so the gatekeeper denies with
`MISSING_OR_INVALID_INTENT`; and the result on a failed store load
equals the result on a store without the declared intent. -/
theorem C1_witness :
    ((check hashFnFixture caseSensitivityInput).1.allow = false ∧
      (check hashFnFixture caseSensitivityInput).1.errorType =
        some HookErrorType.MISSING_OR_INVALID_INTENT) ∧
    check hashFnFixture { caseSensitivityInput with intentsData := none } =
      check hashFnFixture { caseSensitivityInput with
        intentsData := some { active_intents := some [{ id := "INT-001" }] } } :=
  ⟨(C1_missing_intent_characterization.1 hashFnFixture caseSensitivityInput (by decide)
      (fun m c => rfl)).mpr (Or.inr rfl),
   C1_missing_intent_characterization.2 hashFnFixture caseSensitivityInput
      { active_intents := some [{ id := "INT-001" }] }
      (by intro id h; injection h with h; subst h; rfl)⟩

/-- C6: every operation classified safe is allowed by `check` with no
further checks — the result is a fixed allow independent of the
declared intent (including none at all), the stores, the filesystem and
the confirmation channels — and every operation name outside both the
destructive and the safe catalog is classified safe, hence allowed
unconditionally. -/
theorem C6_safe_operations_unconditionally_allowed :
    (∀ (hashFn : String → String) (inp : CheckInput),
      classifyTool inp.toolName = ToolClassification.safe →
      check hashFn inp = ({ allow := true, classification := some ToolClassification.safe }, []))
    ∧ (∀ toolName, EXEMPT_TOOLS.contains toolName = false →
        TOOLS_REQUIRING_INTENT.contains toolName = false →
        classifyTool toolName = ToolClassification.safe) := by
  constructor
  · intro hashFn inp h
    unfold check
    dsimp only
    rw [h]
    simp
  · intro toolName h1 h2
    unfold classifyTool
    rw [h1, h2]
    simp

/-- Witness for C6: `read_file` is allowed with no declared intent, and
an unknown operation name is classified safe. -/
theorem C6_witness :
    check hashFnFixture { baseInput with toolName := "read_file" } =
      ({ allow := true, classification := some ToolClassification.safe }, []) ∧
    classifyTool "totally_unknown_operation" = ToolClassification.safe :=
  ⟨C6_safe_operations_unconditionally_allowed.1 hashFnFixture _ (by decide),
   C6_safe_operations_unconditionally_allowed.2 "totally_unknown_operation"
     (by decide) (by decide)⟩

/-- C10: the staleness step's tool allowlist is exactly write_to_file,
apply_diff, edit_file, edit and search_replace, and for every other
operation — however destructive, with whatever target paths and
expected digest — `checkStaleFile` allows unconditionally. -/
theorem C10_staleness_restricted_to_hash_tools :
    (∀ toolName, TOOLS_WITH_CONTENT_HASH_CHECK.contains toolName =
        (toolName == "write_to_file" || toolName == "apply_diff" || toolName == "edit_file" ||
         toolName == "edit" || toolName == "search_replace"))
    ∧ (∀ (hashFn : String → String) (fs : String → FileState) toolName toolUse,
        TOOLS_WITH_CONTENT_HASH_CHECK.contains toolName = false →
        checkStaleFile hashFn fs toolName toolUse = { allow := true }) := by
  constructor
  · intro toolName
    simp only [TOOLS_WITH_CONTENT_HASH_CHECK, List.contains_cons, List.contains_nil,
      Bool.or_false]
    rw [Bool.or_comm]
    ac_rfl
  · intro hashFn fs toolName toolUse h
    unfold checkStaleFile
    rw [h]
    simp

/-- Witness for C10: `apply_patch` carries an extractable target path
whose on-disk digest differs from the supplied expected digest, yet the
staleness step allows. -/
theorem C10_witness :
    TOOLS_WITH_CONTENT_HASH_CHECK.contains "apply_patch" = false ∧
    checkStaleFile hashFnFixture
        (fun p => if p = "a.ts" then FileState.content "new content" else FileState.absent)
        "apply_patch"
        { nativeArgs := [("patch", "*** Update File: a.ts"),
            ("expected_content_hash", "sha256:old")],
          params := [] } =
      { allow := true } :=
  ⟨by decide,
   C10_staleness_restricted_to_hash_tools.2 hashFnFixture _ "apply_patch" _ (by decide)⟩
/-- C3: a line `intent:<id>` in an exclusion file puts `<id>` into
`ignored_intents`, and a destructive operation under a declared,
stored, excluded intent is denied with `INTENT_IGNORED` (the spec's
`INTENT_EXCLUDED`) — with no hypothesis at all on the intent's
`owned_scope` or the operation's target paths, since the exclusion
check runs before and independently of the scope check. -/
theorem C3_intent_exclusion_denies :
    (∀ (content : String) (policy : IntentIgnorePolicy) (id : String),
      id ≠ "" → jsTrim ("intent:" ++ id) = "intent:" ++ id → jsTrim id = id →
      ("intent:" ++ id) ∈ splitLines content →
      (parseIntentIgnoreContent content policy).ignoredIntents.contains id = true)
    ∧ (∀ (hashFn : String → String) (inp : CheckInput) (id : String),
      classifyTool inp.toolName = ToolClassification.destructive →
      NeverApproves inp.ui →
      inp.activeIntentId = some id →
      id ≠ "" →
      ((activeIntentsOf inp.intentsData).find? (fun intent => intent.id == id)).isSome →
      (readIntentIgnorePolicy inp.orchestrationIgnore
        inp.rootIgnore).ignoredIntents.contains id = true →
      (check hashFn inp).1 =
        denied ("Intent " ++ id ++ " is excluded by .intentignore.")
          ToolClassification.destructive HookErrorType.INTENT_IGNORED
          "select_active_intent") := by
  constructor
  · intro content policy id hid htrim htrimid hmem
    exact foldl_parseIgnoreLine_intent_mem id hid htrim htrimid (splitLines content)
      policy hmem
  · intro hashFn inp id hd hn hA hid hFs hIg
    exact check_intent_excluded_denial hashFn inp id hd hn hA hid hFs hIg

/-- Witness for C3: an `.intentignore` consisting of the single line
`intent:INT-001` excludes INT-001, and a write under INT-001 — whose
stored `owned_scope` `["**"]` would allow every path — is denied with
`INTENT_IGNORED`. -/
theorem C3_witness :
    (parseIntentIgnoreContent "intent:INT-001"
        { ignoredIntents := [], ignoredPathPatterns := [] }).ignoredIntents.contains
      "INT-001" = true ∧
    (check hashFnFixture exclusionInput).1 =
      denied ("Intent " ++ "INT-001" ++ " is excluded by .intentignore.")
        ToolClassification.destructive HookErrorType.INTENT_IGNORED
        "select_active_intent" :=
  ⟨C3_intent_exclusion_denies.1 "intent:INT-001" _ "INT-001" (by decide) (by decide)
      (by decide) (by decide),
   C3_intent_exclusion_denies.2 hashFnFixture exclusionInput "INT-001" (by decide)
      (fun m c => rfl) rfl (by decide) (by decide) (by decide)⟩

/-- C4: with a declared, stored intent whose non-empty `owned_scope`
matches none of the operation's first target path's patterns (and no
exclusion applies), `check` denies with `SCOPE_VIOLATION` and the
denial message contains both the intent id and the rejected path as
substrings; concretely, under `owned_scope = ["src/**"]` a write to
`src/a.ts` is allowed while a write to `docs/a.md` is denied with the
message naming `INT-001` and `docs/a.md`. -/
theorem C4_scope_violation_names_intent_and_path :
    (∀ (hashFn : String → String) (inp : CheckInput) (id : String)
      (intent : ActiveIntent) (p : String) (rest : List String),
      classifyTool inp.toolName = ToolClassification.destructive →
      NeverApproves inp.ui →
      inp.activeIntentId = some id →
      id ≠ "" →
      (activeIntentsOf inp.intentsData).find? (fun intent => intent.id == id) = some intent →
      (readIntentIgnorePolicy inp.orchestrationIgnore
        inp.rootIgnore).ignoredIntents.contains id = false →
      mismatchCheck inp.toolName inp.toolUse (classifyTool inp.toolName) id = none →
      getTargetPathsForTool inp.toolName inp.toolUse = p :: rest →
      intent.owned_scope.getD [] ≠ [] →
      matchesAnyPattern p (readIntentIgnorePolicy inp.orchestrationIgnore
        inp.rootIgnore).ignoredPathPatterns = false →
      matchesAnyPattern p (intent.owned_scope.getD []) = false →
      ((check hashFn inp).1 =
        denied (scopeViolationMessage id p) ToolClassification.destructive
          HookErrorType.SCOPE_VIOLATION "request_scope_expansion" ∧
       ContainsSub (scopeViolationMessage id p) id ∧
       ContainsSub (scopeViolationMessage id p) p))
    ∧ (check hashFnFixture scopeAllowInput).1 =
        { allow := true, classification := some ToolClassification.destructive }
    ∧ (check hashFnFixture scopeDenyInput).1 =
        denied (scopeViolationMessage "INT-001" "docs/a.md") ToolClassification.destructive
          HookErrorType.SCOPE_VIOLATION "request_scope_expansion" := by
  refine ⟨?_, by decide, by decide⟩
  intro hashFn inp id intent p rest hd hn hA hid hF hIg hM hT hpats hnoign hnomatch
  refine ⟨check_scope_violation_denial hashFn inp id intent p rest hd hn hA hid hF hIg
      hM hT hpats hnoign hnomatch, ?_, ?_⟩
  · exact ⟨"Scope Violation: ",
      " is not authorized to edit [" ++ p ++ "]. Request scope expansion.",
      by simp [scopeViolationMessage, String.append_assoc]⟩
  · exact ⟨"Scope Violation: " ++ id ++ " is not authorized to edit [",
      "]. Request scope expansion.",
      by simp [scopeViolationMessage, String.append_assoc]⟩

/-- Witness for C4's general part, at the concrete `docs/a.md` denial. -/
theorem C4_witness :
    (check hashFnFixture scopeDenyInput).1 =
      denied (scopeViolationMessage "INT-001" "docs/a.md") ToolClassification.destructive
        HookErrorType.SCOPE_VIOLATION "request_scope_expansion" ∧
    ContainsSub (scopeViolationMessage "INT-001" "docs/a.md") "INT-001" ∧
    ContainsSub (scopeViolationMessage "INT-001" "docs/a.md") "docs/a.md" :=
  C4_scope_violation_names_intent_and_path.1 hashFnFixture scopeDenyInput "INT-001"
    { id := "INT-001", owned_scope := some ["src/**"] } "docs/a.md" [] (by decide)
    (fun m c => rfl) rfl (by decide) (by decide) (by decide) (by decide) (by decide)
    (by decide) (by decide) (by decide)
/-- C7 (amended): when the caller supplies no override channel, a
`check` denial is not returned silently — it is either the staleness
denial or the `write_to_file` intent-mismatch denial (the only two
branches that never consult a channel), or it was preceded by a
blocking VS Code warning modal (the returned prompt list is
non-empty). -/
theorem C7_no_channel_denials_prompt_host_modal (hashFn : String → String) (inp : CheckInput)
    (hch : inp.ui.askForAuthorization = none)
    (h : (check hashFn inp).1.allow = false) :
    (check hashFn inp).1.errorType = some HookErrorType.STALE_FILE ∨
    (check hashFn inp).1.errorType = some HookErrorType.HOOK_BLOCKED ∨
    (check hashFn inp).2 ≠ [] := by
  unfold check at h ⊢
  dsimp only at h ⊢
  by_cases hsafe : classifyTool inp.toolName = ToolClassification.safe
  · rw [if_pos hsafe] at h
    simp at h
  · rw [if_neg hsafe] at h
    rw [if_neg hsafe]
    rcases hA : inp.activeIntentId with _ | id
    · simp only [hA]
      right; right
      rw [missingIntentResult_of_no_channel _ _ hch]
      simp
    · simp only [hA]
      cases hbeq : (id == "")
      · simp only [hbeq, Bool.false_eq_true, if_false]
        rcases hF : (activeIntentsOf inp.intentsData).find? (fun intent => intent.id == id)
          with _ | intent
        · simp only [hF]
          right; right
          rw [missingIntentResult_of_no_channel _ _ hch]
          simp
        · simp only [hF]
          cases hIg : (readIntentIgnorePolicy inp.orchestrationIgnore
              inp.rootIgnore).ignoredIntents.contains id
          · simp only [hIg, Bool.false_eq_true, if_false]
            rcases hM : mismatchCheck inp.toolName inp.toolUse (classifyTool inp.toolName) id
              with _ | r
            · simp only [hM]
              rcases hPS : pathScan inp.ui (classifyTool inp.toolName) id
                  (readIntentIgnorePolicy inp.orchestrationIgnore inp.rootIgnore)
                  (intent.owned_scope.getD [])
                  (getTargetPathsForTool inp.toolName inp.toolUse) with _ | rp
              · simp only [hA, hbeq, Bool.false_eq_true, if_false, hF, hIg, hM, hPS] at h
                rcases checkStaleFile_result hashFn inp.fs inp.toolName inp.toolUse
                  with hS | ⟨hS1, hS2⟩
                · rw [hS] at h
                  simp at h
                · left
                  simp only [hPS, hS1, Bool.not_false, if_true]
                  exact hS2
              · obtain ⟨rr, pp⟩ := rp
                simp only [hPS]
                right; right
                exact pathScan_prompts_of_no_channel inp.ui _ _ _ _ hch _ rr pp hPS
            · simp only [hM]
              right; left
              exact (mismatchCheck_result _ _ _ _ r hM).2.1
          · simp only [hIg, if_true]
            right; right
            rw [intentIgnoredResult_of_no_channel _ _ _ hch]
            simp
      · simp only [hbeq, if_true]
        right; right
        rw [missingIntentResult_of_no_channel _ _ hch]
        simp

/-- Counterexample to C2 as stated: `apply_patch` is destructive,
supplies a non-empty expected digest and has an extractable target
path that exists on disk with a different digest, yet `check` allows —
so the claim's "if and only if" fails for this destructive operation. -/
theorem C2_counterexample :
    classifyTool patchStaleInput.toolName = ToolClassification.destructive ∧
    argLookup patchStaleInput.toolUse.nativeArgs "expected_content_hash" =
      some "sha256:old" ∧
    jsTrim "sha256:old" ≠ "" ∧
    getTargetPathsForTool patchStaleInput.toolName patchStaleInput.toolUse = ["a.ts"] ∧
    patchStaleInput.fs "a.ts" = FileState.content "new content" ∧
    hashFnFixture "new content" ≠ jsTrim "sha256:old" ∧
    (check hashFnFixture patchStaleInput).1.allow = true := by decide

/-- C2 (amended): restricted to the five content-hash tools, the
staleness step denies exactly when some extracted target path is a
readable on-disk file whose current digest differs from the trimmed
expected digest — targets that are absent or unreadable are skipped,
and matching the current digest allows; every staleness denial carries
`STALE_FILE` (the spec's `STALE_TARGET`); and a `check` run that ends
in the staleness denial is identical under every override channel —
the human-override escape hatch can never convert it. -/
theorem C2_staleness_for_hash_tools :
    (∀ (hashFn : String → String) (fs : String → FileState) (toolName : String)
      (toolUse : ToolUse) (expectedHash : String),
      TOOLS_WITH_CONTENT_HASH_CHECK.contains toolName = true →
      argLookup toolUse.nativeArgs "expected_content_hash" = some expectedHash →
      jsTrim expectedHash ≠ "" →
      ((checkStaleFile hashFn fs toolName toolUse).allow = false ↔
        ∃ p ∈ getTargetPathsForTool toolName toolUse, ∃ text,
          fs p = FileState.content text ∧ hashFn text ≠ jsTrim expectedHash))
    ∧ (∀ (hashFn : String → String) (fs : String → FileState) (toolName : String)
        (toolUse : ToolUse),
        (checkStaleFile hashFn fs toolName toolUse).allow = false →
        (checkStaleFile hashFn fs toolName toolUse).errorType =
          some HookErrorType.STALE_FILE)
    ∧ (∀ (hashFn : String → String) (inp : CheckInput) (ui2 : Ui),
        (check hashFn inp).1.errorType = some HookErrorType.STALE_FILE →
        check hashFn { inp with ui := ui2 } = check hashFn inp) := by
  refine ⟨?_, ?_, check_stale_denial_ui_independent⟩
  · intro hashFn fs toolName toolUse expectedHash hc hl hne
    unfold checkStaleFile
    dsimp only
    simp only [hc, Bool.not_true, Bool.false_eq_true, if_false]
    cases hE : (getTargetPathsForTool toolName toolUse).isEmpty
    · simp only [hE, Bool.false_eq_true, if_false, hl]
      have hb : (jsTrim expectedHash == "") = false := by simp [hne]
      simp only [hb, Bool.false_eq_true, if_false]
      rcases hS : staleScan hashFn fs (jsTrim expectedHash)
          (getTargetPathsForTool toolName toolUse) with _ | p
      · simp only [hS]
        refine iff_of_false (by simp) ?_
        rintro ⟨p, hp, text, hfs, hneq⟩
        exact hneq ((staleScan_eq_none_iff _ _ _ _).mp hS p hp text hfs)
      · simp only [hS]
        refine iff_of_true (by simp [denied]) ?_
        by_contra hno
        push_neg at hno
        have hnone : staleScan hashFn fs (jsTrim expectedHash)
            (getTargetPathsForTool toolName toolUse) = none :=
          (staleScan_eq_none_iff _ _ _ _).mpr (fun p hp text ht => hno p hp text ht)
        rw [hnone] at hS
        cases hS
    · simp only [hE, if_true]
      have hTnil : getTargetPathsForTool toolName toolUse = [] := by
        simpa using hE
      refine iff_of_false (by simp) ?_
      rintro ⟨p, hp, _⟩
      rw [hTnil] at hp
      cases hp
  · intro hashFn fs toolName toolUse h
    rcases checkStaleFile_result hashFn fs toolName toolUse with hS | ⟨_, hS2⟩
    · rw [hS] at h; cases h
    · exact hS2

/-- Witness for C2 (amended): a `write_to_file` whose target exists
with different content is denied by the staleness step, and supplying
the digest of the current content is allowed. -/
theorem C2_witness :
    (checkStaleFile hashFnFixture staleFsFixture "write_to_file"
        staleToolUseFixture).allow = false ∧
    (checkStaleFile hashFnFixture staleFsFixture "write_to_file"
        { staleToolUseFixture with
            nativeArgs := [("path", "a.ts"),
              ("expected_content_hash", "sha256:new content")] }).allow = true :=
  ⟨(C2_staleness_for_hash_tools.1 hashFnFixture staleFsFixture "write_to_file"
      staleToolUseFixture "sha256:old" (by decide) (by decide) (by decide)).mpr
      ⟨"a.ts", by decide, "new content", by decide, by decide⟩,
   by decide⟩

/-- Counterexample to C7 as stated: with no caller-supplied channel, a
step-1 denial (no declared intent) is not returned without prompting —
the hook raises the VS Code modal; an "Approve" answer even converts
the would-be denial into an allow, and a dismissed modal still means a
prompt was shown before the denial. -/
theorem C7_counterexample :
    ((check hashFnFixture { baseInput with ui := uiHostApproveFixture }).1.allow = true ∧
      (check hashFnFixture { baseInput with ui := uiHostApproveFixture }).2 ≠ []) ∧
    ((check hashFnFixture { baseInput with ui := uiHostDismissFixture }).1.allow = false ∧
      (check hashFnFixture { baseInput with ui := uiHostDismissFixture }).2 ≠ []) := by
  decide

/-- Witness for C7 (amended): the missing-intent denial with no
channel and a dismissed host modal comes with a non-empty prompt
list. -/
theorem C7_witness :
    (check hashFnFixture { baseInput with ui := uiHostDismissFixture }).1.errorType =
        some HookErrorType.STALE_FILE ∨
    (check hashFnFixture { baseInput with ui := uiHostDismissFixture }).1.errorType =
        some HookErrorType.HOOK_BLOCKED ∨
    (check hashFnFixture { baseInput with ui := uiHostDismissFixture }).2 ≠ [] :=
  C7_no_channel_denials_prompt_host_modal hashFnFixture
    { baseInput with ui := uiHostDismissFixture } rfl (by decide)

theorem normalizePath_contains_star (p : String) :
    (normalizePath p).data.contains '*' = p.data.contains '*' := by
  unfold normalizePath
  dsimp only
  have hmap : ∀ cs : List Char,
      (cs.map (fun c => if c = '\\' then '/' else c)).contains '*' = cs.contains '*' := by
    intro cs
    induction cs with
    | nil => rfl
    | cons c rest ih =>
      simp only [List.map_cons, List.contains_cons, ih]
      by_cases hc : c = '\\'
      · subst hc; rfl
      · rw [if_neg hc]
  split
  · next rest heq =>
    rw [← hmap p.data, heq]
    simp [List.contains_cons]
  · next other heq =>
    rw [← hmap p.data]

theorem dstarGo_iff (t : List Char → Bool) :
    ∀ ds, globMatch.dstarGo t ds = true ↔
      ∃ i, i ≤ ds.length ∧ (ds.take i).all (fun c => !isLineTerminator c) = true ∧
        t (ds.drop i) = true := by
  intro ds
  induction ds with
  | nil =>
    simp only [globMatch.dstarGo]
    constructor
    · intro h; exact ⟨0, Nat.le_refl _, by simp, h⟩
    · rintro ⟨i, hi, hall, ht⟩
      have : i = 0 := Nat.le_zero.mp (by simpa using hi)
      subst this
      exact ht
  | cons d rest ih =>
    simp only [globMatch.dstarGo, Bool.or_eq_true, Bool.and_eq_true, ih]
    constructor
    · rintro (h | ⟨hLT, i, hi, hall, ht⟩)
      · exact ⟨0, by simp, by simp, h⟩
      · refine ⟨i + 1, Nat.succ_le_succ hi, ?_, ?_⟩
        · rw [List.take_succ_cons]
          simp only [List.all_cons, hLT, hall, Bool.and_self]
        · rw [List.drop_succ_cons]; exact ht
    · rintro ⟨i, hi, hall, ht⟩
      cases i with
      | zero => left; simpa using ht
      | succ j =>
        right
        rw [List.take_succ_cons, List.all_cons, Bool.and_eq_true] at hall
        exact ⟨hall.1, j, Nat.le_of_succ_le_succ hi, hall.2, by
          rw [List.drop_succ_cons] at ht; exact ht⟩

theorem starGo_iff (t : List Char → Bool) :
    ∀ ds, globMatch.starGo t ds = true ↔
      ∃ i, i ≤ ds.length ∧ (ds.take i).all (fun c => !(c = '/')) = true ∧
        t (ds.drop i) = true := by
  intro ds
  induction ds with
  | nil =>
    simp only [globMatch.starGo]
    constructor
    · intro h; exact ⟨0, Nat.le_refl _, by simp, h⟩
    · rintro ⟨i, hi, hall, ht⟩
      have : i = 0 := Nat.le_zero.mp (by simpa using hi)
      subst this
      exact ht
  | cons d rest ih =>
    simp only [globMatch.starGo, Bool.or_eq_true, Bool.and_eq_true, ih]
    constructor
    · rintro (h | ⟨hLT, i, hi, hall, ht⟩)
      · exact ⟨0, by simp, by simp, h⟩
      · refine ⟨i + 1, Nat.succ_le_succ hi, ?_, ?_⟩
        · rw [List.take_succ_cons]
          simp only [List.all_cons, hLT, hall, Bool.and_self]
        · rw [List.drop_succ_cons]; exact ht
    · rintro ⟨i, hi, hall, ht⟩
      cases i with
      | zero => left; simpa using ht
      | succ j =>
        right
        rw [List.take_succ_cons, List.all_cons, Bool.and_eq_true] at hall
        exact ⟨hall.1, j, Nat.le_of_succ_le_succ hi, hall.2, by
          rw [List.drop_succ_cons] at ht; exact ht⟩

theorem map_bs_idem (cs : List Char) :
    (cs.map (fun c => if c = '\\' then '/' else c)).map
      (fun c => if c = '\\' then '/' else c) =
    cs.map (fun c => if c = '\\' then '/' else c) := by
  induction cs with
  | nil => rfl
  | cons c rest ih =>
    simp only [List.map_cons, ih, List.cons.injEq, and_true]
    by_cases hc : c = '\\'
    · subst hc; rfl
    · rw [if_neg hc, if_neg hc]

theorem normalizePath_map_bs (t : String) :
    normalizePath (String.mk (t.data.map (fun c => if c = '\\' then '/' else c))) =
      normalizePath t := by
  unfold normalizePath
  dsimp only
  rw [map_bs_idem]

theorem stripDotSlash_of_take (cs : List Char) :
    cs.take 2 ≠ ['.', '/'] →
    (match cs with
      | '.' :: '/' :: rest => rest
      | other => other) = cs := by
  intro h
  split
  · next rest heq => exact absurd rfl h
  · rfl

/-- C5: the shared glob matcher satisfies: a `*`-free pattern matches
exactly the targets whose normalized form equals the normalized
pattern; `**` (compiled to the regex `.*`) absorbs any run of
characters including `/` (everything except a line terminator, which
JS `.` never matches); a single `*` (compiled to `[^/]*`) absorbs any
run of characters other than `/`, never crossing a path segment; and
both sides are normalized before comparison — converting backslashes
is absorbed by the matcher, and one leading `./` on the target is
stripped. -/
theorem C5_glob_matcher_semantics :
    (∀ t p : String, p.data.contains '*' = false →
      (matchesPattern t p = true ↔ normalizePath t = normalizePath p))
    ∧ (∀ (ps : List GlobAtom) (ds : List Char),
        globMatch (GlobAtom.dstar :: ps) ds = true ↔
        ∃ i, i ≤ ds.length ∧ (ds.take i).all (fun c => !isLineTerminator c) = true ∧
          globMatch ps (ds.drop i) = true)
    ∧ (∀ (ps : List GlobAtom) (ds : List Char),
        globMatch (GlobAtom.star :: ps) ds = true ↔
        ∃ i, i ≤ ds.length ∧ (ds.take i).all (fun c => !(c = '/')) = true ∧
          globMatch ps (ds.drop i) = true)
    ∧ (∀ t p : String,
        matchesPattern (String.mk (t.data.map (fun c => if c = '\\' then '/' else c))) p =
          matchesPattern t p ∧
        matchesPattern t (String.mk (p.data.map (fun c => if c = '\\' then '/' else c))) =
          matchesPattern t p)
    ∧ (∀ t p : String,
        (t.data.map (fun c => if c = '\\' then '/' else c)).take 2 ≠ ['.', '/'] →
        matchesPattern ("./" ++ t) p = matchesPattern t p) := by
  refine ⟨?_, ?_, ?_, ?_, ?_⟩
  · intro t p h
    have hstar : (normalizePath p).data.contains '*' = false := by
      rw [normalizePath_contains_star]; exact h
    unfold matchesPattern
    dsimp only
    rw [hstar]
    simp [beq_iff_eq]
  · intro ps ds
    rw [show globMatch (GlobAtom.dstar :: ps) ds = globMatch.dstarGo (globMatch ps) ds
      from rfl]
    exact dstarGo_iff (globMatch ps) ds
  · intro ps ds
    rw [show globMatch (GlobAtom.star :: ps) ds = globMatch.starGo (globMatch ps) ds
      from rfl]
    exact starGo_iff (globMatch ps) ds
  · intro t p
    constructor
    · unfold matchesPattern
      dsimp only
      rw [normalizePath_map_bs]
    · unfold matchesPattern
      dsimp only
      rw [normalizePath_map_bs]
  · intro t p h
    have hnorm : normalizePath ("./" ++ t) = normalizePath t := by
      unfold normalizePath
      dsimp only
      rw [show ("./" ++ t).data = '.' :: '/' :: t.data from by
        rw [String.data_append]; rfl]
      rw [show ('.' :: '/' :: t.data).map (fun c => if c = '\\' then '/' else c) =
        '.' :: '/' :: t.data.map (fun c => if c = '\\' then '/' else c) from rfl]
      rw [show (match ('.' :: '/' :: t.data.map (fun c => if c = '\\' then '/' else c)) with
          | '.' :: '/' :: rest => rest
          | other => other) = t.data.map (fun c => if c = '\\' then '/' else c) from rfl]
      rw [stripDotSlash_of_take _ h]
    unfold matchesPattern
    dsimp only
    rw [hnorm]

/-- Witness for C5: a backslashed target equals its slashed pattern
under a star-free pattern, and a leading `./` is stripped. -/
theorem C5_witness :
    matchesPattern "a\\b" "a/b" = true ∧
    matchesPattern "./a.ts" "a.ts" = matchesPattern "a.ts" "a.ts" :=
  ⟨(C5_glob_matcher_semantics.1 "a\\b" "a/b" (by decide)).mpr (by decide),
   C5_glob_matcher_semantics.2.2.2.2 "a.ts" "a.ts" (by decide)⟩

theorem digitChar_ne_newline (n : Nat) : digitChar n ≠ '\n' := by
  unfold digitChar
  split <;> decide

theorem hexDigit_ne_newline (n : Nat) : hexDigit n ≠ '\n' := by
  unfold hexDigit
  split <;> decide

theorem natDigitsAux_ne_newline :
    ∀ (fuel n : Nat) (acc : List Char), (∀ c ∈ acc, c ≠ '\n') →
      ∀ c ∈ natDigitsAux fuel n acc, c ≠ '\n' := by
  intro fuel
  induction fuel with
  | zero => intro n acc hacc; exact hacc
  | succ f ih =>
    intro n acc hacc c hc
    unfold natDigitsAux at hc
    split at hc
    · rcases List.mem_cons.mp hc with rfl | hc
      · exact digitChar_ne_newline n
      · exact hacc c hc
    · refine ih (n / 10) _ ?_ c hc
      intro d hd
      rcases List.mem_cons.mp hd with rfl | hd
      · exact digitChar_ne_newline n
      · exact hacc d hd

theorem natToString_ne_newline (n : Nat) : ∀ c ∈ (natToString n).data, c ≠ '\n' := by
  intro c hc
  exact natDigitsAux_ne_newline (n + 1) n [] (by intro d hd; cases hd) c hc

theorem escapeJsonChar_ne_newline (c : Char) : ∀ d ∈ (escapeJsonChar c).data, d ≠ '\n' := by
  intro d hd
  unfold escapeJsonChar at hd
  split at hd
  · exact (by decide : ∀ x ∈ ("\\\"" : String).data, x ≠ '\n') d hd
  · split at hd
    · exact (by decide : ∀ x ∈ ("\\\\" : String).data, x ≠ '\n') d hd
    · split at hd
      · exact (by decide : ∀ x ∈ ("\\n" : String).data, x ≠ '\n') d hd
      · split at hd
        · exact (by decide : ∀ x ∈ ("\\r" : String).data, x ≠ '\n') d hd
        · split at hd
          · exact (by decide : ∀ x ∈ ("\\t" : String).data, x ≠ '\n') d hd
          · split at hd
            · exact (by decide : ∀ x ∈ ("\\b" : String).data, x ≠ '\n') d hd
            · split at hd
              · exact (by decide : ∀ x ∈ ("\\f" : String).data, x ≠ '\n') d hd
              · split at hd
                · rw [String.data_append] at hd
                  rcases List.mem_append.mp hd with hd | hd
                  · exact (by decide : ∀ x ∈ ("\\u00" : String).data, x ≠ '\n') d hd
                  · rcases List.mem_cons.mp hd with rfl | hd
                    · exact hexDigit_ne_newline _
                    · rcases List.mem_cons.mp hd with rfl | hd
                      · exact hexDigit_ne_newline _
                      · cases hd
                · next h1 h2 h3 h4 h5 h6 h7 h8 =>
                  rcases List.mem_cons.mp hd with rfl | hd
                  · exact h3
                  · cases hd

theorem jsonEscape_ne_newline (s : String) : ∀ d ∈ (jsonEscape s).data, d ≠ '\n' := by
  unfold jsonEscape
  induction s.data with
  | nil => intro d hd; cases hd
  | cons c rest ih =>
    intro d hd
    simp only [List.map_cons, List.foldr_cons, String.data_append] at hd
    rcases List.mem_append.mp hd with hd | hd
    · exact escapeJsonChar_ne_newline c d hd
    · exact ih d hd

theorem jsonStr_ne_newline (s : String) : ∀ d ∈ (jsonStr s).data, d ≠ '\n' := by
  unfold jsonStr
  intro d hd
  rw [String.data_append, String.data_append] at hd
  rcases List.mem_append.mp hd with hd | hd
  · rcases List.mem_append.mp hd with hd | hd
    · exact (by decide : ∀ x ∈ ("\"" : String).data, x ≠ '\n') d hd
    · exact jsonEscape_ne_newline s d hd
  · exact (by decide : ∀ x ∈ ("\"" : String).data, x ≠ '\n') d hd

theorem strAppend_ne_newline (s t : String) (hs : ∀ d ∈ s.data, d ≠ '\n')
    (ht : ∀ d ∈ t.data, d ≠ '\n') : ∀ d ∈ (s ++ t).data, d ≠ '\n' := by
  intro d hd
  rw [String.data_append] at hd
  rcases List.mem_append.mp hd with h | h
  · exact hs d h
  · exact ht d h

theorem traceLine_ne_newline (hashFn : String → String) (w : TraceWorld)
    (params : TraceParams) (intentId : String) :
    ∀ d ∈ (traceLine hashFn w params intentId).data, d ≠ '\n' := by
  unfold traceLine relatedFragment
  dsimp only
  rcases w.revisionId with _ | r <;>
    (repeat' apply strAppend_ne_newline) <;>
    first
      | exact jsonStr_ne_newline _
      | exact jsonEscape_ne_newline _
      | exact natToString_ne_newline _
      | decide

theorem splitChars_append_newline (l rest : List Char) (h : '\n' ∉ l) :
    splitChars (l ++ '\n' :: rest) = l :: splitChars rest := by
  induction l with
  | nil => simp [splitChars]
  | cons c l' ih =>
    have hc : ¬(c = '\n') := fun hc => h (hc ▸ List.mem_cons_self c l')
    have h' : '\n' ∉ l' := fun hm => h (List.mem_cons_of_mem c hm)
    simp only [List.cons_append, splitChars, if_neg hc]
    change (match splitChars (l' ++ '\n' :: rest) with
      | [] => [[c]]
      | l :: ls => (c :: l) :: ls) = (c :: l') :: splitChars rest
    rw [ih h']

theorem stripCR_traceLine (hashFn : String → String) (w : TraceWorld)
    (params : TraceParams) (intentId : String) :
    stripCR (traceLine hashFn w params intentId).data =
      (traceLine hashFn w params intentId).data := by
  unfold stripCR
  rw [if_neg]
  intro hlast
  have h1 : (traceLine hashFn w params intentId).data.getLast? = some '\x7d' := by
    unfold traceLine
    dsimp only
    rw [String.data_append, List.getLast?_append]
    rfl
  rw [h1] at hlast
  cases hlast

theorem trace_append_shape (hashFn : String → String) :
    ∀ (calls : List (TraceWorld × TraceParams)) (ledger : String),
      (∀ c ∈ calls, successfulCall c) →
      applyTraceCalls hashFn calls ledger =
        ledger ++ calls.foldr (fun c acc => traceLineOf hashFn c ++ "\n" ++ acc) "" := by
  intro calls
  induction calls with
  | nil =>
    intro ledger _
    simp [applyTraceCalls]
  | cons c rest ih =>
    intro ledger hs
    obtain ⟨id, hid, hne⟩ := hs c (List.mem_cons_self _ _)
    have hstep : runAgentTracePostHook hashFn c.1 c.2 ledger =
        ledger ++ traceLineOf hashFn c ++ "\n" := by
      unfold runAgentTracePostHook traceLineOf
      have hbeq : (id == "") = false := by simp [hne]
      simp only [hid, hbeq, Bool.false_eq_true, if_false, Option.getD_some]
    have happ : applyTraceCalls hashFn (c :: rest) ledger =
        applyTraceCalls hashFn rest (runAgentTracePostHook hashFn c.1 c.2 ledger) := rfl
    rw [happ, hstep, ih _ (fun d hd => hs d (List.mem_cons_of_mem _ hd))]
    simp [String.append_assoc]

theorem str_empty_append (s : String) : "" ++ s = s := by
  cases s
  rfl

theorem splitLines_line_append (l r : String) (hnl : ∀ d ∈ l.data, d ≠ '\n')
    (hcr : stripCR l.data = l.data) :
    splitLines (l ++ "\n" ++ r) = l :: splitLines r := by
  unfold splitLines
  rw [String.data_append, String.data_append,
    (rfl : ("\n" : String).data = ['\n']), List.append_assoc, List.singleton_append,
    splitChars_append_newline l.data r.data (fun hm => (hnl '\n' hm) rfl)]
  simp only [List.map_cons, hcr]

theorem trace_lines_shape (hashFn : String → String) :
    ∀ (calls : List (TraceWorld × TraceParams)),
      (∀ c ∈ calls, successfulCall c) →
      splitLines (applyTraceCalls hashFn calls "") =
        calls.map (traceLineOf hashFn) ++ [""] := by
  intro calls
  induction calls with
  | nil => intro _; rfl
  | cons c rest ih =>
    intro h
    have hrest : ∀ d ∈ rest, successfulCall d := fun d hd => h d (List.mem_cons_of_mem _ hd)
    rw [trace_append_shape hashFn (c :: rest) "" h, str_empty_append]
    have hR := ih hrest
    rw [trace_append_shape hashFn rest "" hrest, str_empty_append] at hR
    have hfold : (c :: rest).foldr (fun c acc => traceLineOf hashFn c ++ "\n" ++ acc) "" =
        traceLineOf hashFn c ++ "\n" ++
          rest.foldr (fun c acc => traceLineOf hashFn c ++ "\n" ++ acc) "" := rfl
    rw [hfold]
    have hnl : ∀ d ∈ (traceLineOf hashFn c).data, d ≠ '\n' := by
      unfold traceLineOf
      exact traceLine_ne_newline hashFn c.1 c.2 _
    have hcr : stripCR (traceLineOf hashFn c).data = (traceLineOf hashFn c).data := by
      unfold traceLineOf
      exact stripCR_traceLine hashFn c.1 c.2 _
    rw [splitLines_line_append _ _ hnl hcr, hR]
    rfl

/-- C8: the ledger writer is a no-op when the effective intent id
(`params.intent_id ?? task.activeIntentId`) is absent or the empty
string; N successful calls append exactly N newline-terminated
serialized records (splitting the resulting file yields exactly the N
record lines plus the final empty piece after the last newline); each
serialized record is a single line (it contains no newline character);
and each record contains its `related` fragment — which carries the
supplied intent id as the `value` of a `specification` entry — as a
contiguous substring. -/
theorem C8_ledger_append_monotone :
    (∀ (hashFn : String → String) (w : TraceWorld) (params : TraceParams) (ledger : String),
      (params.intent_id <|> w.activeIntentId) = none ∨
        (params.intent_id <|> w.activeIntentId) = some "" →
      runAgentTracePostHook hashFn w params ledger = ledger)
    ∧ (∀ (hashFn : String → String) (calls : List (TraceWorld × TraceParams))
        (ledger : String), (∀ c ∈ calls, successfulCall c) →
        applyTraceCalls hashFn calls ledger =
          ledger ++ calls.foldr (fun c acc => traceLineOf hashFn c ++ "\n" ++ acc) "")
    ∧ (∀ (hashFn : String → String) (calls : List (TraceWorld × TraceParams)),
        (∀ c ∈ calls, successfulCall c) →
        splitLines (applyTraceCalls hashFn calls "") =
          calls.map (traceLineOf hashFn) ++ [""])
    ∧ (∀ (hashFn : String → String) (w : TraceWorld) (params : TraceParams)
        (intentId : String), ∀ d ∈ (traceLine hashFn w params intentId).data, d ≠ '\n')
    ∧ (∀ (hashFn : String → String) (w : TraceWorld) (params : TraceParams)
        (intentId : String),
        ContainsSub (traceLine hashFn w params intentId) (relatedFragment intentId)) := by
  refine ⟨?_, trace_append_shape, trace_lines_shape, traceLine_ne_newline, ?_⟩
  · intro hashFn w params ledger h
    unfold runAgentTracePostHook
    rcases h with h | h <;> simp only [h]
    rfl
  · intro hashFn w params intentId
    exact ⟨_, _, rfl⟩

/-- Witness for C8: an empty-string intent id leaves the ledger
unchanged, and two successful calls yield exactly their two record
lines. -/
theorem C8_witness :
    runAgentTracePostHook hashFnFixture traceCallFixture.1
        { path := "src/a.ts", intent_id := some "" } "LEDGER" = "LEDGER" ∧
    splitLines (applyTraceCalls hashFnFixture [traceCallFixture, traceCallFixture] "") =
      [traceCallFixture, traceCallFixture].map (traceLineOf hashFnFixture) ++ [""] :=
  ⟨C8_ledger_append_monotone.1 hashFnFixture traceCallFixture.1
      { path := "src/a.ts", intent_id := some "" } "LEDGER" (Or.inr rfl),
   C8_ledger_append_monotone.2.2.1 hashFnFixture [traceCallFixture, traceCallFixture]
     (by
       intro d hd
       rcases List.mem_cons.mp hd with rfl | hd
       · exact ⟨"INT-001", rfl, by decide⟩
       · rcases List.mem_cons.mp hd with rfl | hd
         · exact ⟨"INT-001", rfl, by decide⟩
         · cases hd)⟩


theorem listCharLe_total : ∀ a b, listCharLe a b = true ∨ listCharLe b a = true := by
  intro a
  induction a with
  | nil => intro b; left; rfl
  | cons c cs ih =>
    intro b
    cases b with
    | nil => right; rfl
    | cons d ds =>
      by_cases h : c = d
      · subst h
        simpa [listCharLe] using ih ds
      · rcases lt_or_gt_of_ne h with hlt | hgt
        · left; simp [listCharLe, h, hlt]
        · right; simp [listCharLe, Ne.symm h, hgt]

theorem listCharLe_trans : ∀ a b c, listCharLe a b = true → listCharLe b c = true →
    listCharLe a c = true := by
  intro a
  induction a with
  | nil => intro b c _ _; rfl
  | cons x xs ih =>
    intro b c hab hbc
    cases b with
    | nil => simp [listCharLe] at hab
    | cons y ys =>
      cases c with
      | nil => simp [listCharLe] at hbc
      | cons z zs =>
        by_cases hxy : x = y
        · subst hxy
          by_cases hyz : x = z
          · subst hyz
            simp [listCharLe] at hab hbc ⊢
            exact ih ys zs hab hbc
          · simp [listCharLe, hyz] at hbc ⊢
            exact hbc
        · by_cases hyz : y = z
          · subst hyz
            simp [listCharLe, hxy] at hab ⊢
            exact hab
          · simp [listCharLe, hxy] at hab
            simp [listCharLe, hyz] at hbc
            have hxz : x < z := lt_trans hab hbc
            simp [listCharLe, ne_of_lt hxz, hxz]

theorem listCharLe_antisymm : ∀ a b, listCharLe a b = true → listCharLe b a = true →
    a = b := by
  intro a
  induction a with
  | nil =>
    intro b _ hba
    cases b with
    | nil => rfl
    | cons d ds => simp [listCharLe] at hba
  | cons c cs ih =>
    intro b hab hba
    cases b with
    | nil => simp [listCharLe] at hab
    | cons d ds =>
      by_cases h : c = d
      · subst h
        simp [listCharLe] at hab hba
        exact congrArg (c :: ·) (ih ds hab hba)
      · simp [listCharLe, h] at hab
        simp [listCharLe, Ne.symm h] at hba
        exact absurd hba (not_lt_of_gt hab)

theorem strLe_total : IsTotal String strLe := ⟨fun a b => listCharLe_total a.data b.data⟩

theorem strLe_trans : IsTrans String strLe := ⟨fun a b c => listCharLe_trans a.data b.data c.data⟩

theorem strLe_antisymm : IsAntisymm String strLe :=
  ⟨fun a b hab hba => by
    cases a; cases b
    exact congrArg String.mk (listCharLe_antisymm _ _ hab hba)⟩

theorem sortStrings_sorted (l : List String) : (sortStrings l).Sorted strLe := by
  haveI := strLe_total
  haveI := strLe_trans
  exact List.sorted_insertionSort strLe l

theorem sortStrings_perm (l : List String) : (sortStrings l).Perm l :=
  List.perm_insertionSort strLe l

theorem sortStrings_of_sorted (l : List String) (h : l.Sorted strLe) :
    sortStrings l = l := by
  haveI := strLe_trans
  exact List.Sorted.insertionSort_eq h

theorem sortStrings_idem (l : List String) : sortStrings (sortStrings l) = sortStrings l :=
  sortStrings_of_sorted _ (sortStrings_sorted l)

theorem sortStrings_mem (l : List String) (x : String) : x ∈ sortStrings l ↔ x ∈ l :=
  (sortStrings_perm l).mem_iff

theorem sortStrings_nodup (l : List String) (h : l.Nodup) : (sortStrings l).Nodup :=
  ((sortStrings_perm l).nodup_iff).mpr h

theorem sortStrings_congr_perm (a b : List String) (h : a.Perm b) :
    sortStrings a = sortStrings b := by
  haveI := strLe_antisymm
  exact List.eq_of_perm_of_sorted
    ((sortStrings_perm a).trans (h.trans (sortStrings_perm b).symm))
    (sortStrings_sorted a) (sortStrings_sorted b)

theorem sortStrings_singleton (x : String) : sortStrings [x] = [x] := rfl


theorem mapGet_mapSet_self (m : List (String × List String)) (k : String) (v : List String) :
    mapGet (mapSet m k v) k = some v := by
  induction m with
  | nil => simp [mapSet, mapGet, List.find?]
  | cons kv rest ih =>
    by_cases h : kv.1 = k
    · simp [mapSet, h, mapGet, List.find?]
    · have hb : (kv.1 == k) = false := beq_false_of_ne h
      simp only [mapSet, hb, Bool.false_eq_true, if_false]
      simpa [mapGet, List.find?, hb] using ih

theorem mapGet_mapSet_ne (m : List (String × List String)) (k k2 : String) (v : List String)
    (h : k2 ≠ k) : mapGet (mapSet m k v) k2 = mapGet m k2 := by
  induction m with
  | nil => simp [mapSet, mapGet, List.find?, beq_false_of_ne (Ne.symm h)]
  | cons kv rest ih =>
    by_cases hk : kv.1 = k
    · subst hk
      have hb : (kv.1 == k2) = false := beq_false_of_ne (fun e => h e.symm)
      simp [mapSet, mapGet, List.find?, hb, beq_false_of_ne h]
    · have hb : (kv.1 == k) = false := beq_false_of_ne hk
      simp only [mapSet, hb, Bool.false_eq_true, if_false]
      by_cases he : kv.1 = k2
      · simp [mapGet, List.find?, he]
      · have hb2 : (kv.1 == k2) = false := beq_false_of_ne he
        simpa [mapGet, List.find?, hb2] using ih

theorem mapSet_self (m : List (String × List String)) (k : String) (v : List String)
    (h : mapGet m k = some v) : mapSet m k v = m := by
  induction m with
  | nil => simp [mapGet, List.find?] at h
  | cons kv rest ih =>
    obtain ⟨k1, v1⟩ := kv
    by_cases hk : k1 = k
    · have hb : (k1 == k) = true := beq_iff_eq.mpr hk
      simp only [mapGet, List.find?, hb] at h
      simp only [Option.map_some', Option.some.injEq] at h
      simp [mapSet, hb, h, hk]
    · have hb : (k1 == k) = false := beq_false_of_ne hk
      simp only [mapGet, List.find?, hb] at h
      simp only [mapSet, hb, Bool.false_eq_true, if_false]
      rw [ih (by simpa [mapGet] using h)]

theorem mapGet_append (m1 m2 : List (String × List String)) (k : String) :
    mapGet (m1 ++ m2) k = (mapGet m1 k).orElse (fun _ => mapGet m2 k) := by
  induction m1 with
  | nil => simp [mapGet]
  | cons kv rest ih =>
    by_cases hk : kv.1 = k
    · simp [mapGet, List.find?, beq_iff_eq.mpr hk]
    · have hb : (kv.1 == k) = false := beq_false_of_ne hk
      simpa [mapGet, List.find?, hb] using ih

theorem mapSet_append_of_none (m : List (String × List String)) (k : String)
    (v : List String) (h : mapGet m k = none) : mapSet m k v = m ++ [(k, v)] := by
  induction m with
  | nil => simp [mapSet]
  | cons kv rest ih =>
    by_cases hk : kv.1 = k
    · simp [mapGet, List.find?, beq_iff_eq.mpr hk] at h
    · have hb : (kv.1 == k) = false := beq_false_of_ne hk
      simp only [mapGet, List.find?, hb] at h
      simp [mapSet, hb, ih (by simpa [mapGet] using h)]

theorem mapGet_map_self (f : String → List String) (l : List String) (t : String)
    (h : t ∈ l) : mapGet (l.map (fun x => (x, f x))) t = some (f t) := by
  induction l with
  | nil => cases h
  | cons x xs ih =>
    by_cases hx : x = t
    · subst hx
      simp [mapGet, List.find?]
    · have hb : (x == t) = false := beq_false_of_ne hx
      have hmem : t ∈ xs := by
        cases List.mem_cons.mp h with
        | inl e => exact absurd e.symm hx
        | inr e => exact e
      simpa [mapGet, List.find?, hb] using ih hmem

theorem mapGet_map_eq_some (f : String → List String) (l : List String) (t : String)
    (ps : List String) (h : mapGet (l.map (fun x => (x, f x))) t = some ps) :
    t ∈ l ∧ ps = f t := by
  induction l with
  | nil => simp [mapGet, List.find?] at h
  | cons x xs ih =>
    by_cases hx : x = t
    · subst hx
      simp [mapGet, List.find?] at h
      exact ⟨List.mem_cons_self _ _, h.symm⟩
    · have hb : (x == t) = false := beq_false_of_ne hx
      simp only [List.map_cons, mapGet, List.find?, hb] at h
      have := ih (by simpa [mapGet] using h)
      exact ⟨List.mem_cons_of_mem _ this.1, this.2⟩

theorem foldl_mapSet_fresh :
    ∀ (raw acc : List (String × List String)),
      (∀ s ∈ raw, mapGet acc s.1 = none) → (raw.map Prod.fst).Nodup →
      raw.foldl (fun m s => mapSet m s.1 s.2) acc = acc ++ raw := by
  intro raw
  induction raw with
  | nil => intro acc _ _; simp
  | cons s raw' ih =>
    intro acc hfresh hnodup
    have hstep : mapSet acc s.1 s.2 = acc ++ [s] := by
      rw [mapSet_append_of_none acc s.1 s.2 (hfresh s (List.mem_cons_self _ _))]
    simp only [List.foldl_cons, hstep]
    rw [ih (acc ++ [s]) ?_ ?_]
    · simp
    · intro u hu
      rw [mapGet_append]
      rw [hfresh u (List.mem_cons_of_mem _ hu)]
      have hne : (s.1 == u.1) = false := by
        have : s.1 ≠ u.1 := by
          intro e
          have : s.1 ∈ raw'.map Prod.fst := by
            rw [e]; exact List.mem_map_of_mem Prod.fst hu
          simp only [List.map_cons, List.nodup_cons] at hnodup
          exact hnodup.1 this
        exact beq_false_of_ne this
      simp [mapGet, List.find?, hne]
    · simp only [List.map_cons, List.nodup_cons] at hnodup
      exact hnodup.2

theorem mem_of_containsStr (l : List String) (x : String) (h : l.contains x = true) :
    x ∈ l := by
  rw [List.contains_eq_any_beq] at h
  obtain ⟨y, hy, he⟩ := List.any_eq_true.mp h
  exact (beq_iff_eq.mp he) ▸ hy

theorem containsStr_of_mem (l : List String) (x : String) (h : x ∈ l) :
    l.contains x = true := by
  rw [List.contains_eq_any_beq]
  exact List.any_eq_true.mpr ⟨x, h, beq_self_eq_true x⟩

theorem not_mem_of_containsStr_false (l : List String) (x : String)
    (h : l.contains x = false) : x ∉ l := by
  intro hm
  rw [containsStr_of_mem l x hm] at h
  cases h

theorem setAdd_of_contains (l : List String) (x : String) (h : l.contains x = true) :
    setAdd l x = l := by
  unfold setAdd
  split
  · rfl
  · next hn => exact absurd h hn

theorem setAdd_mem_self (l : List String) (x : String) : x ∈ setAdd l x := by
  unfold setAdd
  split
  · next hp => exact mem_of_containsStr l x hp
  · exact List.mem_append_right _ (List.mem_singleton.mpr rfl)

theorem setAdd_nodup (l : List String) (x : String) (h : l.Nodup) : (setAdd l x).Nodup := by
  unfold setAdd
  split
  · exact h
  · next hn =>
    have hx : x ∉ l :=
      not_mem_of_containsStr_false l x (Bool.not_eq_true _ ▸ eq_false_of_ne_true hn)
    simp [List.nodup_append, h, hx]

theorem setAdd_sub (l : List String) (x : String) : ∀ y ∈ setAdd l x, y ∈ l ∨ y = x := by
  intro y hy
  unfold setAdd at hy
  rcases Classical.em (l.contains x = true) with hc | hc
  · rw [if_pos hc] at hy
    exact Or.inl hy
  · rw [if_neg hc] at hy
    rcases List.mem_append.mp hy with h | h
    · exact Or.inl h
    · exact Or.inr (List.mem_singleton.mp h)

theorem foldl_setAdd_fresh :
    ∀ (l acc : List String), (∀ x ∈ l, acc.contains x = false) → l.Nodup →
      l.foldl setAdd acc = acc ++ l := by
  intro l
  induction l with
  | nil => intro acc _ _; simp
  | cons x xs ih =>
    intro acc hfresh hnodup
    have hstep : setAdd acc x = acc ++ [x] := by
      unfold setAdd
      rw [if_neg (by rw [hfresh x (List.mem_cons_self _ _)]; exact Bool.false_ne_true)]
    simp only [List.foldl_cons, hstep]
    rw [ih (acc ++ [x]) ?_ ?_]
    · simp
    · intro y hy
      rw [List.contains_eq_any_beq, List.any_append]
      rw [← List.contains_eq_any_beq, hfresh y (List.mem_cons_of_mem _ hy)]
      have hne : x ≠ y := by
        intro e
        simp only [List.nodup_cons] at hnodup
        exact hnodup.1 (e ▸ hy)
      simp [List.any_eq_true]
      exact fun e => absurd e.symm hne
    · simp only [List.nodup_cons] at hnodup
      exact hnodup.2


theorem dropWhile_eq_self_of_length (q : Char → Bool) (l : List Char)
    (h : (l.dropWhile q).length = l.length) : l.dropWhile q = l :=
  (List.dropWhile_suffix q).eq_of_length h

theorem trim_fixed_both (cs : List Char) (h : trimChars cs = cs) :
    trimLeftChars cs = cs ∧ trimRightChars cs = cs := by
  have h1 : (trimLeftChars cs).length ≤ cs.length := by
    simpa [trimLeftChars] using (List.dropWhile_suffix (l := cs) isWS).length_le
  have h2 : (trimRightChars (trimLeftChars cs)).length ≤ (trimLeftChars cs).length := by
    simp only [trimRightChars, List.length_reverse]
    simpa using (List.dropWhile_suffix (l := (trimLeftChars cs).reverse) isWS).length_le
  have hlen : cs.length = (trimChars cs).length := by rw [h]
  rw [trimChars] at hlen
  have hL : (trimLeftChars cs).length = cs.length := le_antisymm h1 (by omega)
  have hLfix : trimLeftChars cs = cs :=
    dropWhile_eq_self_of_length isWS cs (by simpa [trimLeftChars] using hL)
  refine ⟨hLfix, ?_⟩
  calc trimRightChars cs = trimRightChars (trimLeftChars cs) := by rw [hLfix]
    _ = trimChars cs := rfl
    _ = cs := h

theorem trimLeft_fixed_head (cs : List Char) (h : trimLeftChars cs = cs) :
    ∀ c cs2, cs = c :: cs2 → isWS c = false := by
  intro c cs2 he
  subst he
  by_contra hne
  have hc : isWS c = true := by
    cases hx : isWS c
    · exact absurd hx hne
    · rfl
  rw [trimLeftChars, List.dropWhile_cons, hc, if_pos rfl] at h
  have := congrArg List.length h
  have hle := (List.dropWhile_suffix (l := cs2) isWS).length_le
  simp at this
  omega

theorem trimRight_fixed_last (cs : List Char) (h : trimRightChars cs = cs) :
    ∀ c, cs.getLast? = some c → isWS c = false := by
  intro c hl
  have hrev : cs.reverse.dropWhile isWS = cs.reverse := by
    have := congrArg List.reverse h
    rwa [trimRightChars, List.reverse_reverse] at this
  have hhead : cs.reverse.head? = some c := by
    rw [List.head?_reverse]
    exact hl
  cases hr : cs.reverse with
  | nil => rw [hr] at hhead; cases hhead
  | cons d ds =>
    rw [hr] at hhead
    have hd : d = c := by simpa using hhead
    subst hd
    rw [hr] at hrev
    exact trimLeft_fixed_head (d :: ds) hrev d ds rfl

theorem jsTrim_fixed_data (t : String) (h : jsTrim t = t) : trimChars t.data = t.data := by
  have := congrArg String.data h
  simpa [jsTrim] using this

theorem data_append_header (t : String) :
    ("## " ++ t).data = '#' :: '#' :: ' ' :: t.data := by
  rw [String.data_append]
  rfl

theorem data_append_item (p : String) :
    (itemLine p).data = '-' :: ' ' :: tickChar :: (p.data ++ [tickChar]) := by
  rw [itemLine, String.data_append, String.data_append, List.append_assoc]
  rfl

theorem takeWhile_all_append (q : Char → Bool) (l1 l2 : List Char)
    (h : ∀ c ∈ l1, q c = true) :
    (l1 ++ l2).takeWhile q = l1 ++ l2.takeWhile q ∧
    (l1 ++ l2).dropWhile q = l2.dropWhile q := by
  induction l1 with
  | nil => exact ⟨rfl, rfl⟩
  | cons c l1' ih =>
    have hc : q c = true := h c (List.mem_cons_self _ _)
    have ih2 := ih (fun d hd => h d (List.mem_cons_of_mem _ hd))
    refine ⟨?_, ?_⟩
    · simp only [List.cons_append, List.takeWhile_cons, hc, if_true, ih2.1]
    · simp only [List.cons_append, List.dropWhile_cons, hc, if_true, ih2.2]

theorem sectionHeaderTitle_header (t : String)
    (htrim : jsTrim t = t) (hne : t ≠ "")
    (hlt : ∀ c ∈ t.data, isLineTerminator c = false) :
    sectionHeaderTitle ("## " ++ t) = some t := by
  have hfix := jsTrim_fixed_data t htrim
  have hboth := trim_fixed_both t.data hfix
  have hdata : t.data ≠ [] := fun e => hne (by cases t; simp at e; simp [e])
  unfold sectionHeaderTitle
  rw [data_append_header]
  have hws : isWS ' ' = true := rfl
  simp only [hws, if_true]
  have hdw : (' ' :: t.data).dropWhile isWS = t.data := by
    rw [List.dropWhile_cons, hws, if_pos rfl]
    exact hboth.1
  rw [hdw]
  cases hd : t.data with
  | nil => exact absurd hd hdata
  | cons r rs =>
    have hany : (r :: rs).any isLineTerminator = false := by
      rw [List.any_eq_false]
      intro c hc
      have := hlt c (hd ▸ hc)
      simp [this]
    simp only [hany, Bool.false_eq_true, if_false]
    rw [← hd, hfix]

theorem listItemPath_item (p : String) (hne : p ≠ "")
    (htick : ∀ c ∈ p.data, (c == tickChar) = false) :
    listItemPath (itemLine p) = some p := by
  have hdata : p.data ≠ [] := fun e => hne (by cases p; simp at e; simp [e])
  unfold listItemPath
  rw [data_append_item]
  have hws : isWS ' ' = true := rfl
  simp only [hws, if_true]
  have htw : isWS tickChar = false := rfl
  have hdw : (' ' :: tickChar :: (p.data ++ [tickChar])).dropWhile isWS =
      tickChar :: (p.data ++ [tickChar]) := by
    rw [List.dropWhile_cons, hws, if_pos rfl, List.dropWhile_cons, htw]
    simp
  rw [hdw]
  simp only [if_pos rfl]
  have hq : ∀ c ∈ p.data, (c != tickChar) = true := by
    intro c hc
    simp [bne, htick c hc]
  have hsplit := takeWhile_all_append (fun ch => ch != tickChar) p.data [tickChar] hq
  have htk : ([tickChar].takeWhile (fun ch => ch != tickChar)) = [] := by
    simp [List.takeWhile_cons, bne]
  have hdk : ([tickChar].dropWhile (fun ch => ch != tickChar)) = [tickChar] := by
    simp [List.dropWhile_cons, bne]
  rw [hsplit.1, hsplit.2, htk, hdk, List.append_nil]
  cases hd : p.data with
  | nil => exact absurd hd hdata
  | cons r rs =>
    rw [if_pos trivial]
    show (if ([] : List Char).all isWS = true then some (String.mk (r :: rs)) else none) = some p
    rw [if_pos (show ([] : List Char).all isWS = true from rfl), ← hd]


theorem joinChars_cons (l : List Char) (ls : List (List Char)) (h : ls ≠ []) :
    joinChars (l :: ls) = l ++ '\n' :: joinChars ls := by
  cases ls with
  | nil => exact absurd rfl h
  | cons a as => rfl

theorem joinChars_append_blank (M : List (List Char)) (h : M ≠ []) :
    joinChars (M ++ [[]]) = joinChars M ++ ['\n'] := by
  induction M with
  | nil => exact absurd rfl h
  | cons l M' ih =>
    cases M' with
    | nil => rfl
    | cons a as =>
      rw [List.cons_append,
        joinChars_cons l (a :: as ++ [[]]) (by simp),
        joinChars_cons l (a :: as) (by simp),
        ih (by simp)]
      simp

theorem getLast?_joinChars (M : List (List Char)) (l : List Char) (h : l ≠ []) :
    (joinChars (M ++ [l])).getLast? = l.getLast? := by
  obtain ⟨c, hc⟩ : ∃ c, l.getLast? = some c := by
    cases l with
    | nil => exact absurd rfl h
    | cons a as => exact ⟨as.getLast?.getD a, List.getLast?_cons⟩
  induction M with
  | nil => rfl
  | cons m M' ih =>
    rw [List.cons_append, joinChars_cons m (M' ++ [l]) (by simp),
      List.getLast?_append, List.getLast?_cons, ih, hc]
    rfl

theorem splitChars_nlFree (l : List Char) (h : '\n' ∉ l) : splitChars l = [l] := by
  induction l with
  | nil => rfl
  | cons c rest ih =>
    have hc : ¬(c = '\n') := fun hc => h (hc ▸ List.mem_cons_self c rest)
    have h' : '\n' ∉ rest := fun hm => h (List.mem_cons_of_mem c hm)
    simp only [splitChars, if_neg hc]
    change (match splitChars rest with
      | [] => [[c]]
      | l :: ls => (c :: l) :: ls) = [c :: rest]
    rw [ih h']

theorem splitChars_joinChars (M : List (List Char)) (hne : M ≠ [])
    (h : ∀ l ∈ M, '\n' ∉ l) : splitChars (joinChars M) = M := by
  induction M with
  | nil => exact absurd rfl hne
  | cons l M' ih =>
    cases M' with
    | nil => exact splitChars_nlFree l (h l (List.mem_cons_self _ _))
    | cons a as =>
      rw [joinChars_cons l (a :: as) (by simp),
        splitChars_append_newline l (joinChars (a :: as)) (h l (List.mem_cons_self _ _)),
        ih (by simp) (fun x hx => h x (List.mem_cons_of_mem _ hx))]

theorem collapseNL_plain_run :
    ∀ (l : List Char) (k : Nat) (rest : List Char), l ≠ [] → (∀ c ∈ l, c ≠ '\n') →
      collapseNL k (l ++ rest) = l ++ collapseNL 0 rest := by
  intro l
  induction l with
  | nil => intro k rest h _; exact absurd rfl h
  | cons c l' ih =>
    intro k rest _ hc
    have hcnl : ¬(c = '\n') := hc c (List.mem_cons_self _ _)
    rw [List.cons_append]
    show collapseNL k (c :: (l' ++ rest)) = c :: (l' ++ collapseNL 0 rest)
    rw [collapseNL, if_neg hcnl]
    cases l' with
    | nil => rfl
    | cons a as =>
      rw [ih 0 rest (by simp) (fun d hd => hc d (List.mem_cons_of_mem _ hd))]

theorem collapseNL_join_id :
    ∀ (n : Nat) (M : List (List Char)) (k : Nat), M.length ≤ n →
      (∀ l ∈ M, '\n' ∉ l) →
      List.Chain' (fun a b => a ≠ [] ∨ b ≠ []) M →
      k ≤ 2 → (k = 2 → M.head? ≠ some []) →
      collapseNL k (joinChars M) = joinChars M := by
  intro n
  induction n with
  | zero =>
    intro M k hlen _ _ _ _
    have : M = [] := List.eq_nil_of_length_eq_zero (Nat.le_zero.mp hlen)
    subst this
    rfl
  | succ n ih =>
    intro M k hlen hnl hchain hk hk2
    cases M with
    | nil => rfl
    | cons l M' =>
      cases M' with
      | nil =>
        show collapseNL k (joinChars [l]) = joinChars [l]
        cases l with
        | nil => rfl
        | cons a as =>
          show collapseNL k (a :: as) = a :: as
          have hpre := collapseNL_plain_run (a :: as) k [] (by simp)
            (fun d hd e => hnl (a :: as) (List.mem_cons_self _ _) (e ▸ hd))
          rw [List.append_nil] at hpre
          rw [hpre]
          show (a :: as) ++ ([] : List Char) = a :: as
          simp
      | cons b bs =>
        rw [joinChars_cons l (b :: bs) (by simp)]
        have hbne : b ≠ [] ∨ l ≠ [] := by
          have hr := (List.chain'_cons'.mp hchain).1 b rfl
          exact hr.symm.imp (fun x => x) (fun x => x)
        by_cases hle : l = []
        · subst hle
          have hb : b ≠ [] := by
            rcases hbne with h | h
            · exact h
            · exact absurd rfl h
          have hknot2 : ¬ 2 ≤ k := fun h2 => (hk2 (le_antisymm hk h2)) rfl
          rw [List.nil_append, collapseNL, if_pos rfl, if_neg hknot2]
          have htail := ih (b :: bs) (k + 1) (by simp at hlen ⊢; omega)
            (fun x hx => hnl x (List.mem_cons_of_mem _ hx)) (List.Chain'.tail hchain)
            (by omega) (fun _ => by simpa using hb)
          rw [htail]
        · rw [collapseNL_plain_run l k ('\n' :: joinChars (b :: bs)) hle
            (fun d hd e => hnl l (List.mem_cons_self _ _) (e ▸ hd))]
          rw [collapseNL, if_pos rfl, if_neg (by omega : ¬ (2 : Nat) ≤ 0)]
          have htail := ih (b :: bs) 1 (by simp at hlen ⊢; omega)
            (fun x hx => hnl x (List.mem_cons_of_mem _ hx)) (List.Chain'.tail hchain)
            (by omega) (fun h => absurd h (by decide))
          rw [htail]


theorem data_eq_nil_iff (s : String) : s.data = [] ↔ s = "" :=
  ⟨fun h => congrArg String.mk h, fun h => by rw [h]⟩

theorem jsTrimEnd_append_newline (x : List Char) (c : Char)
    (hc : x.getLast? = some c) (hw : isWS c = false) :
    jsTrimEnd (x ++ ['\n']) = x := by
  unfold jsTrimEnd
  have hrev : (x ++ ['\n']).reverse = '\n' :: x.reverse := by simp
  rw [hrev, List.dropWhile_cons, if_pos (by rfl)]
  have hhead : x.reverse.head? = some c := by rw [List.head?_reverse]; exact hc
  cases hx : x.reverse with
  | nil => rw [hx] at hhead; cases hhead
  | cons d ds =>
    rw [hx] at hhead
    have hd : d = c := by simpa using hhead
    subst hd
    rw [List.dropWhile_cons, if_neg (by simp [hw])]
    rw [← hx, List.reverse_reverse]

theorem sectionHeaderTitle_empty : sectionHeaderTitle "" = none := rfl

theorem listItemPath_empty : listItemPath "" = none := rfl

theorem sectionHeaderTitle_h1 : sectionHeaderTitle "# Intent Map" = none := rfl

theorem listItemPath_h1 : listItemPath "# Intent Map" = none := rfl

theorem sectionHeaderTitle_desc :
    sectionHeaderTitle
      "Maps business intents to files. Updated when INTENT_EVOLUTION occurs." = none := rfl

theorem listItemPath_desc :
    listItemPath
      "Maps business intents to files. Updated when INTENT_EVOLUTION occurs." = none := rfl

theorem sectionHeaderTitle_item (p : String) : sectionHeaderTitle (itemLine p) = none := by
  unfold sectionHeaderTitle
  rw [data_append_item]
  rfl

theorem listItemPath_header (t : String) : listItemPath ("## " ++ t) = none := by
  unfold listItemPath
  rw [data_append_header]
  rfl

theorem stripCR_of_ne (cs : List Char) (h : cs.getLast? ≠ some '\r') :
    stripCR cs = cs := by
  rw [stripCR, if_neg h]

theorem header_data_getLast (t : String) (c : Char) (h : t.data.getLast? = some c) :
    ("## " ++ t).data.getLast? = some c := by
  rw [data_append_header]
  show (['#', '#', ' '] ++ t.data).getLast? = some c
  rw [List.getLast?_append, h]
  rfl

theorem item_data_getLast (p : String) :
    (itemLine p).data.getLast? = some tickChar := by
  rw [data_append_item]
  show (['-', ' ', tickChar] ++ (p.data ++ [tickChar])).getLast? = some tickChar
  rw [List.getLast?_append, List.getLast?_append]
  rfl

theorem mem_foldr_sectionLines (sections : List (String × List String)) :
    ∀ (order : List String) (l : String),
      l ∈ order.foldr (fun t acc => sectionLines sections t ++ acc) [] →
      ∃ t ∈ order, l ∈ sectionLines sections t := by
  intro order
  induction order with
  | nil => intro l h; cases h
  | cons t order' ih =>
    intro l h
    rcases List.mem_append.mp h with h1 | h2
    · exact ⟨t, List.mem_cons_self _ _, h1⟩
    · obtain ⟨u, hu, hl⟩ := ih l h2
      exact ⟨u, List.mem_cons_of_mem _ hu, hl⟩

theorem mem_sectionLines (sections : List (String × List String)) (t l : String)
    (h : l ∈ sectionLines sections t) :
    l = "## " ++ t ∨ l = "" ∨
      ∃ ps, mapGet sections t = some ps ∧ ∃ p ∈ sortStrings ps, l = itemLine p := by
  unfold sectionLines at h
  rcases List.mem_cons.mp h with h1 | h2
  · exact Or.inl h1
  · rcases List.mem_cons.mp h2 with h3 | h4
    · exact Or.inr (Or.inl h3)
    · cases hm : mapGet sections t with
      | none => rw [hm] at h4; cases h4
      | some ps =>
        rw [hm] at h4
        rcases List.mem_append.mp h4 with h5 | h6
        · obtain ⟨p, hp, he⟩ := List.mem_map.mp h5
          exact Or.inr (Or.inr ⟨ps, rfl, p, hp, he.symm⟩)
        · exact Or.inr (Or.inl (List.mem_singleton.mp h6))


theorem nodupB_nodup : ∀ (l : List String), nodupB l = true → l.Nodup := by
  intro l
  induction l with
  | nil => intro _; exact List.nodup_nil
  | cons x xs ih =>
    intro h
    rw [nodupB, Bool.and_eq_true] at h
    refine List.nodup_cons.mpr ⟨?_, ih h.2⟩
    intro hm
    rw [containsStr_of_mem xs x hm] at h
    simp at h

theorem wfTitle_props (t : String) (h : WFTitleB t = true) :
    jsTrim t = t ∧ t ≠ "" ∧ ∀ c ∈ t.data, isLineTerminator c = false := by
  rw [WFTitleB, Bool.and_eq_true, Bool.and_eq_true] at h
  refine ⟨beq_iff_eq.mp h.1.1, ?_, ?_⟩
  · intro he
    rw [he] at h
    simp at h
  · intro c hc
    have := List.all_eq_true.mp h.2 c hc
    simpa using this

theorem wfPath_props (p : String) (h : WFPathB p = true) :
    p ≠ "" ∧ (∀ c ∈ p.data, (c == tickChar) = false) ∧ ∀ c ∈ p.data, c ≠ '\n' := by
  rw [WFPathB, Bool.and_eq_true] at h
  refine ⟨?_, ?_, ?_⟩
  · intro he
    rw [he] at h
    simp at h
  · intro c hc
    have := List.all_eq_true.mp h.2 c hc
    rw [Bool.and_eq_true] at this
    simpa using this.1
  · intro c hc
    have := List.all_eq_true.mp h.2 c hc
    rw [Bool.and_eq_true] at this
    simpa using this.2

theorem wfState_props (order : List String) (sections : List (String × List String))
    (h : WFstateB order sections = true) :
    order.Nodup ∧
    (∀ t ∈ order, WFTitleB t = true) ∧
    (∀ t ∈ order, ∃ ps, mapGet sections t = some ps ∧ ps ≠ [] ∧ ps.Nodup ∧
      ∀ p ∈ ps, WFPathB p = true) := by
  rw [WFstateB, Bool.and_eq_true] at h
  refine ⟨nodupB_nodup order h.1, ?_, ?_⟩
  · intro t ht
    have := List.all_eq_true.mp h.2 t ht
    rw [Bool.and_eq_true] at this
    exact this.1
  · intro t ht
    have := List.all_eq_true.mp h.2 t ht
    rw [Bool.and_eq_true] at this
    have h2 := this.2
    cases hm : mapGet sections t with
    | none => rw [hm] at h2; cases h2
    | some ps =>
      rw [hm] at h2
      rw [Bool.and_eq_true, Bool.and_eq_true] at h2
      refine ⟨ps, rfl, ?_, nodupB_nodup ps h2.1.2, ?_⟩
      · intro he
        rw [he] at h2
        simp at h2
      · intro p hp
        exact List.all_eq_true.mp h2.2 p hp


theorem serialLines_nl_free (order : List String) (sections : List (String × List String))
    (h : WFstateB order sections = true) :
    ∀ l ∈ serialLines order sections, '\n' ∉ l.data := by
  obtain ⟨_, hT, hS⟩ := wfState_props order sections h
  intro l hl
  unfold serialLines at hl
  rcases List.mem_cons.mp hl with h1 | hl
  · subst h1; decide
  rcases List.mem_cons.mp hl with h1 | hl
  · subst h1; simp
  rcases List.mem_cons.mp hl with h1 | hl
  · subst h1; decide
  rcases List.mem_cons.mp hl with h1 | hl
  · subst h1; simp
  obtain ⟨t, ht, hsec⟩ := mem_foldr_sectionLines sections order l hl
  rcases mem_sectionLines sections t l hsec with h1 | h1 | ⟨ps, hps, p, hp, he⟩
  · subst h1
    intro hmem
    rw [data_append_header] at hmem
    rcases List.mem_cons.mp hmem with he2 | hmem
    · cases he2
    rcases List.mem_cons.mp hmem with he2 | hmem
    · cases he2
    rcases List.mem_cons.mp hmem with he2 | hmem
    · cases he2
    have := (wfTitle_props t (hT t ht)).2.2 '\n' hmem
    simp [isLineTerminator] at this
  · subst h1; simp
  · subst he
    intro hmem
    rw [data_append_item] at hmem
    obtain ⟨qs, hqs, hps2, _, hP⟩ := hS t ht
    rw [hps] at hqs
    cases hqs
    have hpmem : p ∈ ps := (sortStrings_mem ps p).mp hp
    have hpw := wfPath_props p (hP p hpmem)
    rcases List.mem_cons.mp hmem with he2 | hmem
    · cases he2
    rcases List.mem_cons.mp hmem with he2 | hmem
    · cases he2
    rcases List.mem_cons.mp hmem with he2 | hmem
    · cases he2
    rcases List.mem_append.mp hmem with hm2 | hm2
    · exact (hpw.2.2 '\n' hm2) rfl
    · have : '\n' = tickChar := List.mem_singleton.mp hm2
      exact absurd this (by decide)

theorem serialLines_stripCR (order : List String) (sections : List (String × List String))
    (h : WFstateB order sections = true) :
    ∀ l ∈ serialLines order sections, stripCR l.data = l.data := by
  obtain ⟨_, hT, hS⟩ := wfState_props order sections h
  intro l hl
  unfold serialLines at hl
  rcases List.mem_cons.mp hl with h1 | hl
  · subst h1; rfl
  rcases List.mem_cons.mp hl with h1 | hl
  · subst h1; rfl
  rcases List.mem_cons.mp hl with h1 | hl
  · subst h1; rfl
  rcases List.mem_cons.mp hl with h1 | hl
  · subst h1; rfl
  obtain ⟨t, ht, hsec⟩ := mem_foldr_sectionLines sections order l hl
  rcases mem_sectionLines sections t l hsec with h1 | h1 | ⟨ps, hps, p, hp, he⟩
  · subst h1
    obtain ⟨htrim, htne, _⟩ := wfTitle_props t (hT t ht)
    have hfix := trim_fixed_both t.data (jsTrim_fixed_data t htrim)
    have hdne : t.data ≠ [] := fun e => htne ((data_eq_nil_iff t).mp e)
    obtain ⟨c, hc⟩ : ∃ c, t.data.getLast? = some c := by
      cases hd : t.data with
      | nil => exact absurd hd hdne
      | cons a as => exact ⟨as.getLast?.getD a, List.getLast?_cons⟩
    have hcw : isWS c = false := trimRight_fixed_last t.data hfix.2 c hc
    apply stripCR_of_ne
    rw [header_data_getLast t c hc]
    intro he
    have : c = '\r' := by simpa using he
    rw [this] at hcw
    cases hcw
  · subst h1; rfl
  · subst he
    apply stripCR_of_ne
    rw [item_data_getLast p]
    intro he
    have : tickChar = '\r' := by simpa using he
    exact absurd this (by decide)

theorem chain'_items_blank :
    ∀ (items : List String), (∀ x ∈ items, x ≠ "") →
      List.Chain' (fun a b => a ≠ "" ∨ b ≠ "") (items ++ [""]) := by
  intro items
  induction items with
  | nil => intro _; exact List.chain'_singleton _
  | cons x xs ih =>
    intro h
    rw [List.cons_append]
    refine List.chain'_cons'.mpr ⟨?_, ih (fun y hy => h y (List.mem_cons_of_mem _ hy))⟩
    intro y _
    exact Or.inl (h x (List.mem_cons_self _ _))

theorem blocksOf_head_ne (sections : List (String × List String)) :
    ∀ (order : List String) (y : String),
      y ∈ (order.foldr (fun t acc => sectionLines sections t ++ acc) []).head? → y ≠ "" := by
  intro order
  cases order with
  | nil => intro y hy; cases hy
  | cons t order' =>
    intro y hy
    rw [List.foldr_cons] at hy
    have h2 : some ("## " ++ t) = some y := hy
    have h3 : y = "## " ++ t := (Option.some.injEq _ _ ▸ h2).symm
    subst h3
    intro he
    have := congrArg String.data he
    rw [data_append_header] at this
    cases this

theorem chain'_sectionLines (sections : List (String × List String)) (t : String)
    (ps : List String) (hps : mapGet sections t = some ps) (hne : sortStrings ps ≠ []) :
    List.Chain' (fun a b => a ≠ "" ∨ b ≠ "") (sectionLines sections t) := by
  unfold sectionLines
  rw [hps]
  dsimp only
  have hitems : ∀ x ∈ (sortStrings ps).map itemLine, x ≠ "" := by
    intro x hx
    obtain ⟨p, _, he⟩ := List.mem_map.mp hx
    subst he
    intro he2
    have := congrArg String.data he2
    rw [data_append_item] at this
    cases this
  refine List.chain'_cons'.mpr ⟨?_, List.chain'_cons'.mpr ⟨?_, chain'_items_blank _ hitems⟩⟩
  · intro y _
    refine Or.inl ?_
    intro he
    have := congrArg String.data he
    rw [data_append_header] at this
    cases this
  · intro y hy
    cases hm : (sortStrings ps).map itemLine with
    | nil =>
      exact absurd (List.map_eq_nil_iff.mp hm) hne
    | cons q qs2 =>
      rw [hm] at hy
      have h2 : some q = some y := hy
      have h3 : y = q := (Option.some.injEq _ _ ▸ h2).symm
      refine Or.inr ?_
      rw [h3]
      exact hitems q (by rw [hm]; exact List.mem_cons_self _ _)

theorem chain'_blocksOf (sections : List (String × List String)) :
    ∀ (order : List String),
      (∀ t ∈ order, ∃ ps, mapGet sections t = some ps ∧ sortStrings ps ≠ []) →
      List.Chain' (fun a b => a ≠ "" ∨ b ≠ "")
        (order.foldr (fun t acc => sectionLines sections t ++ acc) []) := by
  intro order
  induction order with
  | nil => intro _; exact List.chain'_nil
  | cons t order' ih =>
    intro h
    obtain ⟨ps, hps, hne⟩ := h t (List.mem_cons_self _ _)
    rw [List.foldr_cons]
    rw [List.chain'_append]
    refine ⟨chain'_sectionLines sections t ps hps hne,
      ih (fun u hu => h u (List.mem_cons_of_mem _ hu)), ?_⟩
    intro x _ y hy
    exact Or.inr (blocksOf_head_ne sections order' y hy)

theorem chain'_serialLines (order : List String) (sections : List (String × List String))
    (h : WFstateB order sections = true) :
    List.Chain' (fun a b => a ≠ "" ∨ b ≠ "") (serialLines order sections) := by
  obtain ⟨_, _, hS⟩ := wfState_props order sections h
  have hblocks : ∀ t ∈ order, ∃ ps, mapGet sections t = some ps ∧ sortStrings ps ≠ [] := by
    intro t ht
    obtain ⟨ps, hps, hne, _, _⟩ := hS t ht
    refine ⟨ps, hps, ?_⟩
    intro he
    have := (sortStrings_perm ps).length_eq
    rw [he] at this
    exact hne (List.eq_nil_of_length_eq_zero this.symm)
  unfold serialLines
  refine List.chain'_cons'.mpr ⟨fun y _ => Or.inl (by decide), ?_⟩
  refine List.chain'_cons'.mpr ⟨?_, ?_⟩
  · intro y hy
    have h2 : "Maps business intents to files. Updated when INTENT_EVOLUTION occurs." = y := by
      simpa using hy
    subst h2
    exact Or.inr (by decide)
  refine List.chain'_cons'.mpr ⟨fun y _ => Or.inl (by decide), ?_⟩
  refine List.chain'_cons'.mpr ⟨?_, chain'_blocksOf sections order hblocks⟩
  intro y hy
  exact Or.inr (blocksOf_head_ne sections order y hy)


theorem foldr_sectionLines_append (sections : List (String × List String)) :
    ∀ (o : List String) (X : List String),
      o.foldr (fun t acc => sectionLines sections t ++ acc) X =
      (o.foldr (fun t acc => sectionLines sections t ++ acc) []) ++ X := by
  intro o
  induction o with
  | nil => intro X; rfl
  | cons t o' ih =>
    intro X
    rw [List.foldr_cons, List.foldr_cons, ih X, ← List.append_assoc]

theorem serialLines_decomp (order : List String) (sections : List (String × List String))
    (h : WFstateB order sections = true) :
    ∃ front lastL c, serialLines order sections = front ++ [lastL, ""] ∧
      lastL.data.getLast? = some c ∧ isWS c = false := by
  obtain ⟨_, _, hS⟩ := wfState_props order sections h
  by_cases hord : order = []
  · subst hord
    exact ⟨["# Intent Map", ""],
      "Maps business intents to files. Updated when INTENT_EVOLUTION occurs.", '.',
      rfl, rfl, rfl⟩
  · obtain ⟨ps, hps, hpne, _, _⟩ := hS (order.getLast hord) (List.getLast_mem hord)
    have hsne : sortStrings ps ≠ [] := by
      intro he
      have := (sortStrings_perm ps).length_eq
      rw [he] at this
      exact hpne (List.eq_nil_of_length_eq_zero this.symm)
    have hfold : order.foldr (fun u acc => sectionLines sections u ++ acc) [] =
        order.dropLast.foldr (fun u acc => sectionLines sections u ++ acc) [] ++
          sectionLines sections (order.getLast hord) := by
      conv_lhs => rw [← List.dropLast_append_getLast hord]
      rw [List.foldr_append, List.foldr_cons, List.foldr_nil, List.append_nil,
        foldr_sectionLines_append]
    have hsec : sectionLines sections (order.getLast hord) =
        ("## " ++ order.getLast hord) :: "" :: ((sortStrings ps).map itemLine ++ [""]) := by
      unfold sectionLines
      rw [hps]
    have hmap : (sortStrings ps).map itemLine =
        (sortStrings ps).dropLast.map itemLine ++
          [itemLine ((sortStrings ps).getLast hsne)] := by
      conv_lhs => rw [← List.dropLast_append_getLast hsne]
      rw [List.map_append]
      rfl
    refine ⟨"# Intent Map" :: "" ::
        "Maps business intents to files. Updated when INTENT_EVOLUTION occurs." :: "" ::
        (order.dropLast.foldr (fun u acc => sectionLines sections u ++ acc) [] ++
          (("## " ++ order.getLast hord) :: "" ::
            ((sortStrings ps).dropLast.map itemLine))),
      itemLine ((sortStrings ps).getLast hsne), tickChar, ?_, item_data_getLast _, rfl⟩
    unfold serialLines
    rw [hfold, hsec, hmap]
    simp [List.append_assoc]


theorem splitLines_serialize (order : List String) (sections : List (String × List String))
    (h : WFstateB order sections = true) :
    splitLines (serializeIntentMap order sections) = serialLines order sections := by
  have hnl := serialLines_nl_free order sections h
  have hnl2 : ∀ d ∈ (serialLines order sections).map String.data, '\n' ∉ d := by
    intro d hd
    obtain ⟨x, hx, he⟩ := List.mem_map.mp hd
    subst he
    exact hnl x hx
  have hchain : List.Chain' (fun a b => a ≠ [] ∨ b ≠ [])
      ((serialLines order sections).map String.data) := by
    rw [List.chain'_map]
    refine (chain'_serialLines order sections h).imp ?_
    intro a b hab
    refine hab.imp ?_ ?_
    · intro ha he
      exact ha ((data_eq_nil_iff a).mp he)
    · intro hb he
      exact hb ((data_eq_nil_iff b).mp he)
  have hcoll : collapseNL 0 (joinChars ((serialLines order sections).map String.data)) =
      joinChars ((serialLines order sections).map String.data) :=
    collapseNL_join_id ((serialLines order sections).map String.data).length _ 0 le_rfl
      hnl2 hchain (by omega) (fun he => absurd he (by decide))
  obtain ⟨front, lastL, c, hdec, hlast, hcw⟩ := serialLines_decomp order sections h
  have hlne : lastL.data ≠ [] := by
    intro he
    rw [he] at hlast
    cases hlast
  have hmapdec : (serialLines order sections).map String.data =
      (front.map String.data ++ [lastL.data]) ++ [[]] := by
    rw [hdec, List.map_append]
    simp
  have hjoin : joinChars ((serialLines order sections).map String.data) =
      joinChars (front.map String.data ++ [lastL.data]) ++ ['\n'] := by
    rw [hmapdec]
    exact joinChars_append_blank _ (by simp)
  have hxlast : (joinChars (front.map String.data ++ [lastL.data])).getLast? = some c := by
    rw [getLast?_joinChars _ _ hlne]
    exact hlast
  have htrim : jsTrimEnd (joinChars ((serialLines order sections).map String.data)) =
      joinChars (front.map String.data ++ [lastL.data]) := by
    rw [hjoin]
    exact jsTrimEnd_append_newline _ c hxlast hcw
  have hserdata : (serializeIntentMap order sections).data =
      joinChars ((serialLines order sections).map String.data) := by
    unfold serializeIntentMap
    rw [String.data_append, hcoll, htrim, hjoin]
  unfold splitLines
  rw [hserdata,
    splitChars_joinChars ((serialLines order sections).map String.data) (by simp [serialLines])
      hnl2]
  rw [List.map_map, List.map_map]
  have hid : ∀ l ∈ serialLines order sections,
      (String.mk ∘ (stripCR ∘ String.data)) l = l := by
    intro l hl
    show String.mk (stripCR l.data) = l
    rw [serialLines_stripCR order sections h l hl]
  calc (serialLines order sections).map (String.mk ∘ (stripCR ∘ String.data))
      = (serialLines order sections).map id := List.map_congr_left hid
    _ = serialLines order sections := List.map_id _


theorem parseGo_skip (cur : Option (String × List String)) (line : String)
    (rest : List String) (h1 : sectionHeaderTitle line = none)
    (h2 : listItemPath line = none) :
    parseLinesGo cur (line :: rest) = parseLinesGo cur rest := by
  simp only [parseLinesGo, h1, h2]

theorem parseGo_header_some (s : String × List String) (line t : String)
    (rest : List String) (h : sectionHeaderTitle line = some t) :
    parseLinesGo (some s) (line :: rest) = s :: parseLinesGo (some (t, [])) rest := by
  simp only [parseLinesGo, h]

theorem parseGo_header_none (line t : String) (rest : List String)
    (h : sectionHeaderTitle line = some t) :
    parseLinesGo none (line :: rest) = parseLinesGo (some (t, [])) rest := by
  simp only [parseLinesGo, h]

theorem parseGo_item (s : String × List String) (line p : String) (rest : List String)
    (h1 : sectionHeaderTitle line = none) (h2 : listItemPath line = some p) :
    parseLinesGo (some s) (line :: rest) = parseLinesGo (some (s.1, setAdd s.2 p)) rest := by
  simp only [parseLinesGo, h1, h2]

theorem parse_items :
    ∀ (ps : List String) (t : String) (acc : List String) (rest : List String),
      (∀ p ∈ ps, p ≠ "" ∧ ∀ c ∈ p.data, (c == tickChar) = false) →
      parseLinesGo (some (t, acc)) (ps.map itemLine ++ rest) =
      parseLinesGo (some (t, ps.foldl setAdd acc)) rest := by
  intro ps
  induction ps with
  | nil => intro t acc rest _; rfl
  | cons p ps' ih =>
    intro t acc rest h
    have hp := h p (List.mem_cons_self _ _)
    rw [List.map_cons, List.cons_append,
      parseGo_item (t, acc) (itemLine p) p _ (sectionHeaderTitle_item p)
        (listItemPath_item p hp.1 hp.2)]
    exact ih t (setAdd acc p) rest (fun q hq => h q (List.mem_cons_of_mem _ hq))

theorem parse_blocks (sections : List (String × List String)) :
    ∀ (order : List String) (prev : String × List String),
      (∀ t ∈ order, WFTitleB t = true ∧ ∃ ps, mapGet sections t = some ps ∧ ps.Nodup ∧
        ∀ p ∈ ps, WFPathB p = true) →
      parseLinesGo (some prev)
          (order.foldr (fun t acc => sectionLines sections t ++ acc) []) =
        prev :: order.map (fun t => (t, sortStrings ((mapGet sections t).getD []))) := by
  intro order
  induction order with
  | nil => intro prev _; rfl
  | cons t order' ih =>
    intro prev h
    obtain ⟨hT, ps, hps, hnodup, hP⟩ := h t (List.mem_cons_self _ _)
    obtain ⟨htrim, hne, hlt⟩ := wfTitle_props t hT
    have hsorted : ∀ p ∈ sortStrings ps, p ≠ "" ∧ ∀ c ∈ p.data, (c == tickChar) = false := by
      intro p hp
      have := wfPath_props p (hP p ((sortStrings_mem ps p).mp hp))
      exact ⟨this.1, this.2.1⟩
    rw [List.foldr_cons]
    have hsec : sectionLines sections t ++
        order'.foldr (fun u acc => sectionLines sections u ++ acc) [] =
        ("## " ++ t) :: "" :: ((sortStrings ps).map itemLine ++
          ("" :: order'.foldr (fun u acc => sectionLines sections u ++ acc) [])) := by
      unfold sectionLines
      rw [hps]
      simp [List.append_assoc]
    rw [hsec,
      parseGo_header_some prev _ t _ (sectionHeaderTitle_header t htrim hne hlt),
      parseGo_skip _ "" _ sectionHeaderTitle_empty listItemPath_empty]
    rw [parse_items (sortStrings ps) t [] _ hsorted]
    rw [foldl_setAdd_fresh (sortStrings ps) [] (fun x _ => rfl)
      (sortStrings_nodup ps hnodup)]
    rw [List.nil_append,
      parseGo_skip _ "" _ sectionHeaderTitle_empty listItemPath_empty]
    rw [ih (t, sortStrings ps) (fun u hu => h u (List.mem_cons_of_mem _ hu))]
    rw [List.map_cons, hps]
    rfl

theorem parse_blocks_none (sections : List (String × List String)) (order : List String)
    (h : ∀ t ∈ order, WFTitleB t = true ∧ ∃ ps, mapGet sections t = some ps ∧ ps.Nodup ∧
      ∀ p ∈ ps, WFPathB p = true) :
    parseLinesGo none (order.foldr (fun t acc => sectionLines sections t ++ acc) []) =
      order.map (fun t => (t, sortStrings ((mapGet sections t).getD []))) := by
  cases order with
  | nil => rfl
  | cons t order' =>
    obtain ⟨hT, ps, hps, hnodup, hP⟩ := h t (List.mem_cons_self _ _)
    obtain ⟨htrim, hne, hlt⟩ := wfTitle_props t hT
    have hsorted : ∀ p ∈ sortStrings ps, p ≠ "" ∧ ∀ c ∈ p.data, (c == tickChar) = false := by
      intro p hp
      have := wfPath_props p (hP p ((sortStrings_mem ps p).mp hp))
      exact ⟨this.1, this.2.1⟩
    rw [List.foldr_cons]
    have hsec : sectionLines sections t ++
        order'.foldr (fun u acc => sectionLines sections u ++ acc) [] =
        ("## " ++ t) :: "" :: ((sortStrings ps).map itemLine ++
          ("" :: order'.foldr (fun u acc => sectionLines sections u ++ acc) [])) := by
      unfold sectionLines
      rw [hps]
      simp [List.append_assoc]
    rw [hsec,
      parseGo_header_none _ t _ (sectionHeaderTitle_header t htrim hne hlt),
      parseGo_skip _ "" _ sectionHeaderTitle_empty listItemPath_empty]
    rw [parse_items (sortStrings ps) t [] _ hsorted]
    rw [foldl_setAdd_fresh (sortStrings ps) [] (fun x _ => rfl)
      (sortStrings_nodup ps hnodup)]
    rw [List.nil_append,
      parseGo_skip _ "" _ sectionHeaderTitle_empty listItemPath_empty]
    rw [parse_blocks sections order' (t, sortStrings ps)
      (fun u hu => h u (List.mem_cons_of_mem _ hu))]
    rw [List.map_cons, hps]
    rfl

theorem parse_serialLines (order : List String) (sections : List (String × List String))
    (h : WFstateB order sections = true) :
    parseLinesGo none (serialLines order sections) =
      order.map (fun t => (t, sortStrings ((mapGet sections t).getD []))) := by
  obtain ⟨_, hT, hS⟩ := wfState_props order sections h
  unfold serialLines
  rw [parseGo_skip _ "# Intent Map" _ sectionHeaderTitle_h1 listItemPath_h1,
    parseGo_skip _ "" _ sectionHeaderTitle_empty listItemPath_empty,
    parseGo_skip _ _ _ sectionHeaderTitle_desc listItemPath_desc,
    parseGo_skip _ "" _ sectionHeaderTitle_empty listItemPath_empty]
  refine parse_blocks_none sections order ?_
  intro t ht
  obtain ⟨ps, hps, _, hnd, hP⟩ := hS t ht
  exact ⟨hT t ht, ps, hps, hnd, hP⟩

theorem parseIntentMap_serialize (order : List String)
    (sections : List (String × List String)) (h : WFstateB order sections = true) :
    parseIntentMap (serializeIntentMap order sections) =
      ⟨order, order.map (fun t => (t, sortStrings ((mapGet sections t).getD [])))⟩ := by
  obtain ⟨hnodup, _, _⟩ := wfState_props order sections h
  unfold parseIntentMap
  dsimp only
  rw [splitLines_serialize order sections h, parse_serialLines order sections h]
  have hfst : (order.map (fun t => (t, sortStrings ((mapGet sections t).getD [])))).map
      Prod.fst = order := by
    rw [List.map_map]
    exact List.map_id _
  have hkeys : ((order.map (fun t => (t, sortStrings ((mapGet sections t).getD [])))).map
      Prod.fst).Nodup := by
    rw [hfst]; exact hnodup
  have hfold := foldl_mapSet_fresh
    (order.map (fun t => (t, sortStrings ((mapGet sections t).getD [])))) []
    (fun s _ => rfl) hkeys
  rw [List.nil_append] at hfold
  rw [hfold, hfst]


theorem nodupB_of_nodup : ∀ (l : List String), l.Nodup → nodupB l = true := by
  intro l
  induction l with
  | nil => intro _; rfl
  | cons x xs ih =>
    intro h
    obtain ⟨hx, hxs⟩ := List.nodup_cons.mp h
    rw [nodupB, Bool.and_eq_true]
    refine ⟨?_, ih hxs⟩
    cases hc : xs.contains x with
    | false => rfl
    | true => exact absurd (mem_of_containsStr xs x hc) hx

theorem wfState_intro (order : List String) (sections : List (String × List String))
    (h1 : order.Nodup) (h2 : ∀ t ∈ order, WFTitleB t = true)
    (h3 : ∀ t ∈ order, ∃ ps, mapGet sections t = some ps ∧ ps ≠ [] ∧ ps.Nodup ∧
      ∀ p ∈ ps, WFPathB p = true) :
    WFstateB order sections = true := by
  rw [WFstateB, Bool.and_eq_true]
  refine ⟨nodupB_of_nodup order h1, List.all_eq_true.mpr ?_⟩
  intro t ht
  rw [Bool.and_eq_true]
  refine ⟨h2 t ht, ?_⟩
  obtain ⟨ps, hps, hne, hnd, hP⟩ := h3 t ht
  rw [hps]
  rw [Bool.and_eq_true, Bool.and_eq_true]
  refine ⟨⟨?_, nodupB_of_nodup ps hnd⟩, List.all_eq_true.mpr hP⟩
  cases he : (ps == []) with
  | false => rfl
  | true => exact absurd (beq_iff_eq.mp he) hne

theorem strStartsWith_append (a b : String) : strStartsWith (a ++ b) a = true := by
  unfold strStartsWith
  rw [String.data_append]
  exact List.isPrefixOf_iff_prefix.mpr (List.prefix_append a.data b.data)

theorem resolveTitle_pred (intents : Option (List MapIntent)) (idStr : String) :
    ((resolveIntentTitle intents idStr == idStr) ||
      strStartsWith (resolveIntentTitle intents idStr) (idStr ++ ": ")) = true := by
  unfold resolveIntentTitle
  cases intents with
  | none => simp
  | some l =>
    dsimp only
    cases hf : l.find? (fun i => i.id == idStr) with
    | none => simp
    | some intent =>
      have h1 := List.find?_some hf
      simp only [] at h1
      have hid : intent.id = idStr := beq_iff_eq.mp h1
      dsimp only
      cases hnm : intent.name with
      | none => simp
      | some nm =>
        dsimp only
        split
        · simp
        · rw [hid, strStartsWith_append (idStr ++ ": ") (jsTrim nm)]
          simp

theorem find?_append_none (q : String → Bool) (l1 l2 : List String)
    (h : l1.find? q = none) : (l1 ++ l2).find? q = l2.find? q := by
  induction l1 with
  | nil => rfl
  | cons x xs ih =>
    cases hq : q x with
    | true =>
      rw [List.find?_cons_of_pos _ hq] at h
      cases h
    | false =>
      rw [List.find?_cons_of_neg _ (by simp [hq])] at h
      rw [List.cons_append, List.find?_cons_of_neg _ (by simp [hq])]
      exact ih h

theorem setAdd_ne_nil (l : List String) (x : String) : setAdd l x ≠ [] :=
  List.ne_nil_of_mem (setAdd_mem_self l x)

theorem sectionLines_congr (A B : List (String × List String)) (t : String)
    (psa psb : List String) (ha : mapGet A t = some psa) (hb : mapGet B t = some psb)
    (hs : sortStrings psa = sortStrings psb) :
    sectionLines A t = sectionLines B t := by
  unfold sectionLines
  rw [ha, hb]
  dsimp only
  rw [hs]

theorem foldr_sectionLines_congr (A B : List (String × List String)) :
    ∀ (order : List String), (∀ t ∈ order, sectionLines A t = sectionLines B t) →
      order.foldr (fun t acc => sectionLines A t ++ acc) [] =
      order.foldr (fun t acc => sectionLines B t ++ acc) [] := by
  intro order
  induction order with
  | nil => intro _; rfl
  | cons t order' ih =>
    intro h
    rw [List.foldr_cons, List.foldr_cons, h t (List.mem_cons_self _ _),
      ih (fun u hu => h u (List.mem_cons_of_mem _ hu))]

theorem serialize_congr (order : List String) (A B : List (String × List String))
    (h : ∀ t ∈ order, sectionLines A t = sectionLines B t) :
    serializeIntentMap order A = serializeIntentMap order B := by
  unfold serializeIntentMap serialLines
  rw [foldr_sectionLines_congr A B order h]

theorem sections_of_map_sorted (O : List String) (S : List (String × List String))
    (hWF : WFstateB O S = true) :
    ∀ t ps, mapGet (O.map (fun u => (u, sortStrings ((mapGet S u).getD [])))) t =
        some ps →
      ps.Sorted strLe ∧ ps.Nodup ∧ ∀ q ∈ ps, ps.count q = 1 := by
  intro t ps hget
  obtain ⟨htmem, hps⟩ := mapGet_map_eq_some _ O t ps hget
  obtain ⟨_, _, hS⟩ := wfState_props O S hWF
  obtain ⟨w, hw, _, hnd, _⟩ := hS t htmem
  subst hps
  rw [hw]
  have hnodup : (sortStrings ((some w).getD [])).Nodup := sortStrings_nodup w hnd
  exact ⟨sortStrings_sorted _, hnodup, fun q hq => List.count_eq_one_of_mem hnodup hq⟩


theorem run_eq_cases (intents : Option (List MapIntent)) (idStr p : String)
    (existing : Option String) :
    runIntentMapPostHook intents ⟨idStr, p⟩ existing =
      match (parseExisting existing).order.find?
          (fun t => t == idStr || strStartsWith t (idStr ++ ": ")) with
      | some T =>
        serializeIntentMap (parseExisting existing).order
          (mapSet (parseExisting existing).sections T
            (setAdd ((mapGet (parseExisting existing).sections T).getD []) p))
      | none =>
        serializeIntentMap
          ((parseExisting existing).order ++ [resolveIntentTitle intents idStr])
          (mapSet (parseExisting existing).sections (resolveIntentTitle intents idStr)
            [p]) := by
  unfold runIntentMapPostHook
  dsimp only


/-- C9: Amended index-update algebra of `runIntentMapPostHook`, for
well-formed states (the original claim fails for titles that are not
trim-fixed, see the counterexample).  Under well-formedness of the
existing file's parse, of the path and of the resolved title:
(1) a second update with the same `(intent_id, path)` pair rewrites the
identical file (idempotence); (2) every section of the parse of the
written file is sorted, duplicate-free, and holds exactly one entry per
path; (3) when no existing section title matches the intent id, a new
section titled by `resolveIntentTitle` is appended at the end and the
existing sections are preserved in their original order with their
paths (sorted); (4) when a section matches, the order is unchanged and
the path is added to exactly that section. -/
theorem C9_index_update_algebra (intents : Option (List MapIntent)) (idStr p : String)
    (existing : Option String)
    (hWF : WFstateB (parseExisting existing).order (parseExisting existing).sections = true)
    (hp : WFPathB p = true)
    (ht : WFTitleB (resolveIntentTitle intents idStr) = true) :
    (runIntentMapPostHook intents ⟨idStr, p⟩
        (some (runIntentMapPostHook intents ⟨idStr, p⟩ existing)) =
      runIntentMapPostHook intents ⟨idStr, p⟩ existing) ∧
    (∀ t ps,
      mapGet (parseIntentMap (runIntentMapPostHook intents ⟨idStr, p⟩ existing)).sections t =
          some ps →
        ps.Sorted strLe ∧ ps.Nodup ∧ ∀ q ∈ ps, ps.count q = 1) ∧
    ((∀ t ∈ (parseExisting existing).order,
        (t == idStr || strStartsWith t (idStr ++ ": ")) = false) →
      (parseIntentMap (runIntentMapPostHook intents ⟨idStr, p⟩ existing)).order =
        (parseExisting existing).order ++ [resolveIntentTitle intents idStr] ∧
      (∀ t ∈ (parseExisting existing).order,
        mapGet (parseIntentMap (runIntentMapPostHook intents ⟨idStr, p⟩ existing)).sections
            t =
          some (sortStrings ((mapGet (parseExisting existing).sections t).getD []))) ∧
      mapGet (parseIntentMap (runIntentMapPostHook intents ⟨idStr, p⟩ existing)).sections
          (resolveIntentTitle intents idStr) = some [p]) ∧
    (∀ T, (parseExisting existing).order.find?
          (fun t => t == idStr || strStartsWith t (idStr ++ ": ")) = some T →
      (parseIntentMap (runIntentMapPostHook intents ⟨idStr, p⟩ existing)).order =
        (parseExisting existing).order ∧
      mapGet (parseIntentMap (runIntentMapPostHook intents ⟨idStr, p⟩ existing)).sections
          T =
        some (sortStrings (setAdd ((mapGet (parseExisting existing).sections T).getD []) p)) ∧
      p ∈ sortStrings (setAdd ((mapGet (parseExisting existing).sections T).getD []) p)) := by
  obtain ⟨h0nodup, h0T, h0S⟩ := wfState_props _ _ hWF
  set O := (parseExisting existing).order with hOdef
  set Sec := (parseExisting existing).sections with hSecdef
  set title := resolveIntentTitle intents idStr with htitledef
  cases hfind : O.find? (fun t => t == idStr || strStartsWith t (idStr ++ ": ")) with
  | none =>
    have hpredt : ((title == idStr) || strStartsWith title (idStr ++ ": ")) = true :=
      resolveTitle_pred intents idStr
    have htitle_notin : title ∉ O := by
      intro hmem
      have hno := List.find?_eq_none.mp hfind _ hmem
      exact hno hpredt
    have hf1 : runIntentMapPostHook intents ⟨idStr, p⟩ existing =
        serializeIntentMap (O ++ [title]) (mapSet Sec title [p]) := by
      rw [run_eq_cases, ← hOdef, ← hSecdef, ← htitledef, hfind]
    have hO1nodup : (O ++ [title]).Nodup := by
      rw [List.nodup_append]
      exact ⟨h0nodup, List.nodup_singleton _,
        fun a ha hb => htitle_notin ((List.mem_singleton.mp hb) ▸ ha)⟩
    have htmem1 : title ∈ O ++ [title] :=
      List.mem_append_right _ (List.mem_singleton_self _)
    have hWF1 : WFstateB (O ++ [title]) (mapSet Sec title [p]) = true := by
      refine wfState_intro _ _ hO1nodup ?_ ?_
      · intro t htm
        rcases List.mem_append.mp htm with hmem | hmem
        · exact h0T t hmem
        · rw [List.mem_singleton.mp hmem]; exact ht
      · intro t htm
        rcases List.mem_append.mp htm with hmem | hmem
        · have hne : t ≠ title := fun he => htitle_notin (he ▸ hmem)
          rw [mapGet_mapSet_ne _ _ _ _ hne]
          exact h0S t hmem
        · rw [List.mem_singleton.mp hmem, mapGet_mapSet_self]
          refine ⟨[p], rfl, by simp, List.nodup_singleton _, ?_⟩
          intro q hq
          rw [List.mem_singleton.mp hq]
          exact hp
    have hRT := parseIntentMap_serialize _ _ hWF1
    refine ⟨?_, ?_, ?_, ?_⟩
    · rw [hf1, run_eq_cases]
      have hpe : parseExisting (some (serializeIntentMap (O ++ [title])
          (mapSet Sec title [p]))) =
          ⟨O ++ [title], (O ++ [title]).map (fun u =>
            (u, sortStrings ((mapGet (mapSet Sec title [p]) u).getD [])))⟩ := by
        show parseIntentMap _ = _
        exact hRT
      rw [hpe]
      dsimp only
      have hfind2 : (O ++ [title]).find?
          (fun t => t == idStr || strStartsWith t (idStr ++ ": ")) = some title := by
        rw [find?_append_none _ _ _ hfind]
        exact List.find?_cons_of_pos _ hpredt
      rw [hfind2]
      dsimp only
      have hgetS1 : mapGet (mapSet Sec title [p]) title = some [p] :=
        mapGet_mapSet_self _ _ _
      have hgetS2 : mapGet ((O ++ [title]).map (fun u =>
          (u, sortStrings ((mapGet (mapSet Sec title [p]) u).getD [])))) title =
          some (sortStrings ((mapGet (mapSet Sec title [p]) title).getD [])) :=
        mapGet_map_self _ _ title htmem1
      refine serialize_congr _ _ _ ?_
      intro t htm
      by_cases he : t = title
      · subst he
        refine sectionLines_congr _ _ title _ [p] (mapGet_mapSet_self _ _ _) hgetS1 ?_
        have hx : (mapGet ((O ++ [title]).map (fun u =>
            (u, sortStrings ((mapGet (mapSet Sec title [p]) u).getD [])))) title).getD [] =
            [p] := by
          rw [hgetS2, hgetS1]
          rfl
        rw [hx, setAdd_of_contains _ _ (containsStr_of_mem _ _ (List.mem_singleton_self p))]
      · obtain ⟨v, hv, _, _, _⟩ := (wfState_props _ _ hWF1).2.2 t htm
        have hg : mapGet (mapSet ((O ++ [title]).map (fun u =>
            (u, sortStrings ((mapGet (mapSet Sec title [p]) u).getD [])))) title
              (setAdd ((mapGet ((O ++ [title]).map (fun u =>
                (u, sortStrings ((mapGet (mapSet Sec title [p]) u).getD [])))) title).getD
                  []) p)) t =
            mapGet ((O ++ [title]).map (fun u =>
              (u, sortStrings ((mapGet (mapSet Sec title [p]) u).getD [])))) t :=
          mapGet_mapSet_ne _ _ _ _ he
        refine sectionLines_congr _ _ t _ v
          (by rw [hg]; exact mapGet_map_self _ _ t htm) hv ?_
        rw [hv]
        exact sortStrings_idem v
    · rw [hf1, hRT]
      exact fun t ps hget => sections_of_map_sorted _ _ hWF1 t ps hget
    · intro hall
      rw [hf1, hRT]
      dsimp only
      refine ⟨rfl, ?_, ?_⟩
      · intro t htm
        rw [mapGet_map_self _ _ t (List.mem_append_left _ htm)]
        have hne : t ≠ title := fun he => htitle_notin (he ▸ htm)
        rw [mapGet_mapSet_ne _ _ _ _ hne]
      · rw [mapGet_map_self _ _ title htmem1, mapGet_mapSet_self]
        rfl
    · intro T hT2
      cases hT2
  | some T =>
    have hpredT : ((T == idStr) || strStartsWith T (idStr ++ ": ")) = true := by
      have := List.find?_some hfind
      simpa using this
    have hTmem : T ∈ O := List.mem_of_find?_eq_some hfind
    obtain ⟨w, hw, hwne, hwnodup, hwP⟩ := h0S T hTmem
    have hf1 : runIntentMapPostHook intents ⟨idStr, p⟩ existing =
        serializeIntentMap O (mapSet Sec T (setAdd ((mapGet Sec T).getD []) p)) := by
      rw [run_eq_cases, ← hOdef, ← hSecdef, hfind]
    have hWF1 : WFstateB O (mapSet Sec T (setAdd ((mapGet Sec T).getD []) p)) = true := by
      refine wfState_intro _ _ h0nodup h0T ?_
      intro t htm
      by_cases he : t = T
      · subst he
        rw [mapGet_mapSet_self]
        refine ⟨setAdd ((mapGet Sec t).getD []) p, rfl, setAdd_ne_nil _ _, ?_, ?_⟩
        · rw [hw]
          exact setAdd_nodup w p hwnodup
        · intro q hq
          rw [hw] at hq
          rcases setAdd_sub w p q hq with hmem | he2
          · exact hwP q hmem
          · rw [he2]; exact hp
      · rw [mapGet_mapSet_ne _ _ _ _ he]
        exact h0S t htm
    have hRT := parseIntentMap_serialize _ _ hWF1
    refine ⟨?_, ?_, ?_, ?_⟩
    · rw [hf1, run_eq_cases]
      have hpe : parseExisting (some (serializeIntentMap O
          (mapSet Sec T (setAdd ((mapGet Sec T).getD []) p)))) =
          ⟨O, O.map (fun u =>
            (u, sortStrings ((mapGet (mapSet Sec T (setAdd ((mapGet Sec T).getD []) p))
              u).getD [])))⟩ := by
        show parseIntentMap _ = _
        exact hRT
      rw [hpe]
      dsimp only
      rw [hfind]
      dsimp only
      have hgetS1 : mapGet (mapSet Sec T (setAdd ((mapGet Sec T).getD []) p)) T =
          some (setAdd ((mapGet Sec T).getD []) p) := mapGet_mapSet_self _ _ _
      have hgetS2 : mapGet (O.map (fun u =>
          (u, sortStrings ((mapGet (mapSet Sec T (setAdd ((mapGet Sec T).getD []) p))
            u).getD [])))) T =
          some (sortStrings ((mapGet (mapSet Sec T (setAdd ((mapGet Sec T).getD []) p))
            T).getD [])) :=
        mapGet_map_self _ _ T hTmem
      have hpmem : p ∈ sortStrings ((mapGet (mapSet Sec T
          (setAdd ((mapGet Sec T).getD []) p)) T).getD []) := by
        rw [hgetS1]
        exact (sortStrings_mem _ _).mpr (setAdd_mem_self _ _)
      refine serialize_congr _ _ _ ?_
      intro t htm
      by_cases he : t = T
      · subst he
        refine sectionLines_congr _ _ t _ (setAdd ((mapGet Sec t).getD []) p)
          (mapGet_mapSet_self _ _ _) hgetS1 ?_
        have hx : (mapGet (O.map (fun u =>
            (u, sortStrings ((mapGet (mapSet Sec t (setAdd ((mapGet Sec t).getD []) p))
              u).getD [])))) t).getD [] =
            sortStrings ((mapGet (mapSet Sec t (setAdd ((mapGet Sec t).getD []) p))
              t).getD []) := by
          rw [hgetS2]
          rfl
        rw [hx, setAdd_of_contains _ _ (containsStr_of_mem _ _ hpmem)]
        rw [hgetS1]
        exact sortStrings_idem _
      · obtain ⟨v, hv, _, _, _⟩ := (wfState_props _ _ hWF1).2.2 t htm
        have hg : mapGet (mapSet (O.map (fun u =>
            (u, sortStrings ((mapGet (mapSet Sec T (setAdd ((mapGet Sec T).getD []) p))
              u).getD [])))) T
              (setAdd ((mapGet (O.map (fun u =>
                (u, sortStrings ((mapGet (mapSet Sec T
                  (setAdd ((mapGet Sec T).getD []) p)) u).getD [])))) T).getD []) p)) t =
            mapGet (O.map (fun u =>
              (u, sortStrings ((mapGet (mapSet Sec T (setAdd ((mapGet Sec T).getD []) p))
                u).getD [])))) t :=
          mapGet_mapSet_ne _ _ _ _ he
        refine sectionLines_congr _ _ t _ v
          (by rw [hg]; exact mapGet_map_self _ _ t htm) hv ?_
        rw [hv]
        exact sortStrings_idem v
    · rw [hf1, hRT]
      exact fun t ps hget => sections_of_map_sorted _ _ hWF1 t ps hget
    · intro hall
      have hfalse := hall T hTmem
      rw [hfalse] at hpredT
      cases hpredT
    · intro T2 hT2
      have hTT : T = T2 := Option.some.injEq _ _ ▸ hT2
      subst hTT
      rw [hf1, hRT]
      dsimp only
      refine ⟨rfl, ?_, ?_⟩
      · rw [mapGet_map_self _ _ T hTmem, mapGet_mapSet_self]
        rfl
      · exact (sortStrings_mem _ _).mpr (setAdd_mem_self _ _)

/-- C9 counterexample: the update is NOT idempotent as claimed.  With
intent id `"A "` (trailing space) the serialized header `## A ` parses
back to the trimmed title `"A"`, which neither equals `"A "` nor starts
with `"A : "`, so the second identical update appends a duplicate
section instead of finding the existing one: the file changes and the
parsed order gains a second section for the same intent. -/
theorem C9_counterexample :
    runIntentMapPostHook none ⟨"A ", "p"⟩
        (some (runIntentMapPostHook none ⟨"A ", "p"⟩ none)) ≠
      runIntentMapPostHook none ⟨"A ", "p"⟩ none ∧
    (parseIntentMap (runIntentMapPostHook none ⟨"A ", "p"⟩
        (some (runIntentMapPostHook none ⟨"A ", "p"⟩ none)))).order = ["A", "A"] := by
  decide

/-- C9 witness: the amended theorem applied at a fresh map for intent
`INT-1` and path `src/a.ts`, with the hypotheses discharged by
evaluation. -/
theorem C9_witness :
    (WFstateB (parseExisting none).order (parseExisting none).sections = true ∧
      WFPathB "src/a.ts" = true ∧
      WFTitleB (resolveIntentTitle none "INT-1") = true) ∧
    runIntentMapPostHook none ⟨"INT-1", "src/a.ts"⟩
        (some (runIntentMapPostHook none ⟨"INT-1", "src/a.ts"⟩ none)) =
      runIntentMapPostHook none ⟨"INT-1", "src/a.ts"⟩ none :=
  ⟨⟨by decide, by decide, by decide⟩,
    (C9_index_update_algebra none "INT-1" "src/a.ts" none (by decide) (by decide)
      (by decide)).1⟩

end RooHooks
